import Mathlib

/-!
Verification of the release script `scripts/release.py`.

The two text-processing routines (`extract_changelog_from_text` and
`get_changelog_entry`) are embedded as executable functions on `List Char`,
mirroring the Python code line by line, including the backtracking
behaviour of the two regular expressions the script uses:

  * extractor pattern: `## v\d+\.\d+\.\d+` (literal space, greedy digit runs);
  * lookup pattern: `##\s*<escaped version>\s*(.*?)\s*(##\s*v\d+\.\d+\.\d+|$)`
    compiled with `re.DOTALL`, searched with leftmost-match semantics,
    where `re.escape(version)` makes the version string a literal,
    `\s*` is greedy, `(.*?)` is lazy, the alternation prefers the heading
    branch, and `$` matches at end of input or just before a final newline.

Character classes (`\d`, `\s`, `str.splitlines`, `str.strip`) are modelled
over their ASCII/Latin-1 behaviour (plus the U+2028/U+2029 line breaks);
`\d` is modelled as the ASCII digits.

File I/O is modelled by passing the file content as an `Option (List Char)`
(`none` = the file does not exist), and the orchestration in `main` is
modelled as a pure function from the parsed arguments and an environment
(file contents, subprocess exit codes, git tag list) to either a raised
exception or the completed trace of printed lines.
-/

/-- Python whitespace (`str.strip`, `str.isspace`, regex `\s`),
restricted to the ASCII/Latin-1 range plus U+2028/U+2029. -/
def isPySpace (c : Char) : Bool :=
  c = ' ' || c = '\t' || c = '\n' || c = '\r' || c = '\x0b' || c = '\x0c' ||
  c = '\x1c' || c = '\x1d' || c = '\x1e' || c = '\x1f' || c = '\x85' ||
  c = '\u2028' || c = '\u2029'

/-- Line-break characters recognised by Python `str.splitlines`
(ASCII/Latin-1 range plus U+2028/U+2029; `\r\n` is handled as one break
by `splitlinesGo` below). -/
def isBreakChar (c : Char) : Bool :=
  c = '\n' || c = '\r' || c = '\x0b' || c = '\x0c' ||
  c = '\x1c' || c = '\x1d' || c = '\x1e' || c = '\x85' ||
  c = '\u2028' || c = '\u2029'

/-- Consume one expected character. -/
def expectChar (c : Char) : List Char → Option (List Char)
  | x :: xs => if x = c then some xs else none
  | [] => none

/-- Consume `\d+` (greedy, one or more ASCII digits), returning the rest. -/
def digitsOne : List Char → Option (List Char)
  | x :: xs => if x.isDigit then some (xs.dropWhile Char.isDigit) else none
  | [] => none

/-- Match the extractor heading pattern `## v\d+\.\d+\.\d+` at the head of
the input, returning the remaining input after the match. -/
def headingRest (cs : List Char) : Option (List Char) :=
  (expectChar '#' cs).bind fun r1 =>
  (expectChar '#' r1).bind fun r2 =>
  (expectChar ' ' r2).bind fun r3 =>
  (expectChar 'v' r3).bind fun r4 =>
  (digitsOne r4).bind fun r5 =>
  (expectChar '.' r5).bind fun r6 =>
  (digitsOne r6).bind fun r7 =>
  (expectChar '.' r7).bind fun r8 =>
  digitsOne r8

/-- Length of the match of `## v\d+\.\d+\.\d+` at the head of the input. -/
def headingAt (cs : List Char) : Option Nat :=
  (headingRest cs).map (fun r => cs.length - r.length)

/-- `re.search(r"## v\d+\.\d+\.\d+", _)`: leftmost match as
(start index, match length). -/
def findHead : List Char → Option (Nat × Nat)
  | [] => none
  | c :: cs =>
    match headingAt (c :: cs) with
    | some l => some (0, l)
    | none => (findHead cs).map (fun p => (p.1 + 1, p.2))

/-- Worker for `splitlines` (accumulates the current line reversed). -/
def splitlinesGo : List Char → List Char → List (List Char)
  | [], acc => if acc.isEmpty then [] else [acc.reverse]
  | c :: rest, acc =>
    if isBreakChar c then
      match rest with
      | r :: rest' =>
        if c = '\r' && r = '\n' then acc.reverse :: splitlinesGo rest' []
        else acc.reverse :: splitlinesGo (r :: rest') []
      | [] => acc.reverse :: splitlinesGo ([] : List Char) []
    else splitlinesGo rest (c :: acc)

/-- Python `str.splitlines()`. -/
def splitlines (cs : List Char) : List (List Char) := splitlinesGo cs []

/-- Python `"\n".join(lines)`. -/
def joinLines : List (List Char) → List Char
  | [] => []
  | [l] => l
  | l :: ls => l ++ '\n' :: joinLines ls

/-- Python `str.lstrip()`. -/
def pyLstrip (cs : List Char) : List Char := cs.dropWhile isPySpace

/-- Python `str.rstrip()`. -/
def pyRstrip (cs : List Char) : List Char := (cs.reverse.dropWhile isPySpace).reverse

/-- Python `str.strip()`. -/
def pyStrip (cs : List Char) : List Char := pyRstrip (pyLstrip cs)

/-- Python `str.replace("```", "")`: remove the non-overlapping occurrences
of the fence marker, scanning left to right. -/
def replaceFence : List Char → List Char
  | [] => []
  | c :: rest =>
    if c = '`' then
      match rest with
      | r1 :: r2 :: rest' =>
        if r1 = '`' && r2 = '`' then replaceFence rest'
        else c :: replaceFence (r1 :: r2 :: rest')
      | r => c :: replaceFence r
    else c :: replaceFence rest

/-- `extract_changelog_from_text` from `scripts/release.py` (lines 73-101):
find the first `## v\d+\.\d+\.\d+` heading, cut just before the next such
heading (or keep everything to the end), strip leading whitespace of every
line, delete every ``` fence marker and trim the result. Returns `[]` when
no heading is present. -/
def extract_changelog_from_text (cs : List Char) : List Char :=
  match findHead cs with
  | none => []
  | some (s, l) =>
    let contentFromStart := cs.drop s
    let contentAfterFirst := cs.drop (s + l)
    let changelogContent :=
      match findHead contentAfterFirst with
      | some (s2, _) => contentFromStart.take (l + s2)
      | none => contentFromStart
    pyStrip (replaceFence (joinLines ((splitlines changelogContent).map pyLstrip)))

/-- Length of the `\s*` run at the head of the input. -/
def wsRunLen (cs : List Char) : Nat := (cs.takeWhile isPySpace).length

/-- Match the lookup's generic next-heading pattern `##\s*v\d+\.\d+\.\d+`
at the head of the input, returning the remaining input. -/
def headingWsRest (cs : List Char) : Option (List Char) :=
  (expectChar '#' cs).bind fun r1 =>
  (expectChar '#' r1).bind fun r2 =>
  (expectChar 'v' (r2.dropWhile isPySpace)).bind fun r3 =>
  (digitsOne r3).bind fun r4 =>
  (expectChar '.' r4).bind fun r5 =>
  (digitsOne r5).bind fun r6 =>
  (expectChar '.' r6).bind fun r7 =>
  digitsOne r7

/-- Length of the match of `##\s*v\d+\.\d+\.\d+` at the head of the input. -/
def headingAtWs (cs : List Char) : Option Nat :=
  (headingWsRest cs).map (fun r => cs.length - r.length)

/-- `$` (without `re.MULTILINE`): matches at end of input, or just before a
final newline.  The argument is the remaining suffix of the input. -/
def dollarAt : List Char → Bool
  | [] => true
  | [c] => c = '\n'
  | _ => false

/-- The alternation `(##\s*v\d+\.\d+\.\d+|$)` at a given suffix: the heading
branch is preferred and consumes its match, `$` consumes nothing. -/
def altAt (cs : List Char) : Option Nat :=
  match headingAtWs cs with
  | some l => some l
  | none => if dollarAt cs then some 0 else none

/-- The greedy `\s*` before the alternation: try consuming `c` whitespace
characters first, backtracking to shorter runs, and return the total number
of characters consumed (whitespace plus alternation). -/
def tryCs (cs : List Char) : Nat → Option Nat
  | 0 => altAt cs
  | c + 1 =>
    match altAt (cs.drop (c + 1)) with
    | some e => some (c + 1 + e)
    | none => tryCs cs c

/-- The lazy `(.*?)\s*(##\s*v\d+\.\d+\.\d+|$)` tail of the lookup pattern:
grow the lazy group one character at a time (`b` characters consumed so
far), at each stop trying the greedy whitespace run and the alternation.
Returns the total number of characters consumed from the current suffix. -/
def findEndAux : List Char → Nat → Option Nat
  | [], b =>
    match tryCs [] (wsRunLen []) with
    | some e => some (b + e)
    | none => none
  | c :: cs', b =>
    match tryCs (c :: cs') (wsRunLen (c :: cs')) with
    | some e => some (b + e)
    | none => findEndAux cs' (b + 1)

/-- The greedy `\s*` before the escaped version literal: try `k` whitespace
characters first, backtracking to shorter runs, and return the number of
characters consumed (whitespace plus literal). -/
def tryLit (lit cs : List Char) : Nat → Option Nat
  | 0 => if lit.isPrefixOf cs then some lit.length else none
  | k + 1 =>
    if lit.isPrefixOf (cs.drop (k + 1)) then some (k + 1 + lit.length)
    else tryLit lit cs k

/-- Attempt to match the whole lookup pattern
`##\s*<version>\s*(.*?)\s*(##\s*v\d+\.\d+\.\d+|$)` (DOTALL) at the head of
`cs`, returning the length of `group(0)`. -/
def matchFrom (version cs : List Char) : Option Nat :=
  ((expectChar '#' cs).bind (expectChar '#')).bind fun rest =>
  (tryLit version rest (wsRunLen rest)).bind fun c1 =>
  (findEndAux ((rest.drop c1).drop (wsRunLen (rest.drop c1))) 0).map fun e =>
  2 + c1 + wsRunLen (rest.drop c1) + e

/-- `re.search` with the lookup pattern: leftmost match as
(start index, length of `group(0)`). -/
def reSearch (version : List Char) : List Char → Option (Nat × Nat)
  | [] => none
  | c :: cs =>
    match matchFrom version (c :: cs) with
    | some l => some (0, l)
    | none => (reSearch version cs).map (fun p => (p.1 + 1, p.2))

/-- The exceptions the script can raise. -/
inductive PyErr where
  | fileNotFound (path : String)
  | entryNotFound (version : List Char) (path : String)
  | copilotFailed
  | jsonDecodeError (path : String)
deriving DecidableEq, Repr

/-- `get_changelog_entry` from `scripts/release.py` (lines 104-115): open the
changelog (raising `FileNotFoundError` if absent), search for the lookup
pattern and return `match.group(0).strip()`, raising a `ValueError` that
names the version and the path when there is no match. -/
def get_changelog_entry (version : List Char) (changelog_path : String)
    (file : Option (List Char)) : Except PyErr (List Char) :=
  match file with
  | none => .error (.fileNotFound changelog_path)
  | some content =>
    match reSearch version content with
    | some (s, l) => .ok (pyStrip ((content.drop s).take l))
    | none => .error (.entryNotFound version changelog_path)

/-- `insert_at_front_of_file` from `scripts/release.py` (lines 49-70):
prepend `newContent` to the file.  A missing file is caught: an error line
is printed and the function returns normally (nothing is raised). -/
def insert_at_front_of_file (filename : String) (file : Option (List Char))
    (newContent : List Char) : Option (List Char) × List String :=
  match file with
  | none => (none, ["Error: File '" ++ filename ++ "' not found."])
  | some content => (some (newContent ++ content), [])

/-- Python dictionary assignment `d[k] = v` on an association list as
produced by `json.load` (replace the value in place, or append a new key
at the end). -/
def dictSet {α : Type} : List (String × α) → String → α → List (String × α)
  | [], k, v => [(k, v)]
  | (k', v') :: rest, k, v =>
    if k' = k then (k, v) :: rest else (k', v') :: dictSet rest k v

/-- The states the `package.json` file can be in. -/
inductive PkgFile where
  | absent
  | invalid
  | valid (entries : List (String × String))
deriving DecidableEq, Repr

/-- `update_package_version` from `scripts/release.py` (lines 21-46): load
`package.json`, assign `data["version"] = new_version` and write it back.
`FileNotFoundError` and `json.JSONDecodeError` are printed and re-raised. -/
def update_package_version (new_version : String) (file : PkgFile) :
    Except PyErr PkgFile :=
  match file with
  | .absent => .error (.fileNotFound "package.json")
  | .invalid => .error (.jsonDecodeError "package.json")
  | .valid data => .ok (.valid (dictSet data "version" new_version))

/-- `get_previous_version` from `scripts/release.py` (lines 13-18): the name
of the last tag, or `None` when the tag list is empty. -/
def get_previous_version (tags : List String) : Option String :=
  if 0 < tags.length then tags.getLast? else none

/-- Python `str(...)` as used by f-string interpolation of an optional
value: `None` prints as the text `"None"`. -/
def pyStrOfOpt : Option String → String
  | none => "None"
  | some s => s

/-- The generation prompt built by `generate_changelog_entry`
(lines 119-135), with `get_previous_version(repo)` and `version`
interpolated by the f-string. -/
def changelogPrompt (version : String) (tags : List String) : String :=
  "\nExamine the git history since the last tag (" ++
  pyStrOfOpt (get_previous_version tags) ++
  ") and generate a new CHANGELOG entry for " ++ version ++
  ".\nThe entry format should be consistent with the existing CHANGELOG.md file.\nDo not output anything other than the new CHANGELOG entry.\n\nFor example, a perfect output looks like this:\n\n## vX.Y.Z\n\n### Fixed\n- A bug fix.\n\n### Improved\n- An improvement.\n\nYour output should be only the markdown, starting with `## " ++
  version ++ "`.\n    "

/-- `generate_changelog_entry` from `scripts/release.py` (lines 118-154):
build the prompt, run the assistant subprocess (exit code and captured
stdout are part of the environment), raise on a non-zero exit code, and
otherwise extract the changelog from `result.stdout.strip()`. -/
def generate_changelog_entry (version : String) (tags : List String)
    (copilotRc : Nat) (copilotOut : List Char) : Except PyErr (List Char) :=
  let _prompt := changelogPrompt version tags
  if copilotRc ≠ 0 then .error .copilotFailed
  else .ok (extract_changelog_from_text (pyStrip copilotOut))

/-- The parsed command-line arguments of `main`. -/
structure Args where
  version : String
  dry_run : Bool
  no_tag : Bool
  no_push : Bool
  no_release : Bool
  skip_gen : Bool
deriving DecidableEq, Repr

/-- The environment `main` runs in: file contents (`none` = absent),
the repository tag list, and the exit codes / captured output of the two
subprocesses. -/
structure Env where
  changelog : Option (List Char)
  tags : List String
  copilotRc : Nat
  copilotOut : List Char
  package : PkgFile
  ghRc : Nat
deriving DecidableEq, Repr

/-- Path of the changelog file used by `main`. -/
def changelogPath : String := "CHANGELOG.md"

/-- Python `version.lstrip("v")`: drop every leading `v`. -/
def lstripV (s : String) : String := String.mk (s.data.dropWhile (fun c => c = 'v'))

/-- `main` from `scripts/release.py` (lines 157-247), modelled as a pure
function from arguments and environment to either a raised exception
(a non-zero process exit) or the trace of printed lines (a zero exit).
The git operations are opaque external collaborators and contribute only
their status lines; lines printed just before a re-raised exception are
subsumed by the exception value. -/
def mainRun (args : Args) (env : Env) : Except PyErr (List String) :=
  let t0 := ["Releasing version: " ++ args.version]
  match (if args.skip_gen then
           get_changelog_entry args.version.data changelogPath env.changelog
         else
           generate_changelog_entry args.version env.tags env.copilotRc env.copilotOut) with
  | .error e => .error e
  | .ok entry =>
    if args.dry_run then
      .ok (t0 ++ ["Dry run mode - not making any changes.",
                  "Generated changelog entry:", String.mk entry])
    else
      let ins :=
        if args.skip_gen then ([] : List String)
        else
          (insert_at_front_of_file changelogPath env.changelog
            (entry ++ ('\n' :: '\n' :: []))).2 ++
          ["Changelog updated at " ++ changelogPath]
      let t1 := t0 ++ ins
      if args.no_tag then
        .ok (t1 ++ ["No-tag mode - not creating tag, pushing, or releasing."])
      else
        match update_package_version (lstripV args.version) env.package with
        | .error e => .error e
        | .ok _newPkg =>
          let t2 := t1 ++ ["Updated package.json to version " ++ lstripV args.version]
          if args.no_push then
            .ok (t2 ++ ["No-push mode - not pushing to remote."])
          else
            let t3 := t2 ++ ["Pushed commit to remote.",
                             "Created git tag " ++ args.version ++ ".",
                             "Pushed new tag " ++ args.version ++ " to remote."]
            if args.no_release then
              .ok (t3 ++ ["No-release mode - not creating GitHub release."])
            else
              if env.ghRc ≠ 0 then .ok (t3 ++ ["Error creating GitHub release."])
              else .ok (t3 ++ ["Created GitHub release for " ++ args.version ++ "."])

/-- The fence marker ``` as a character list. -/
def fenceMarker : List Char := ['`', '`', '`']

/-- A well-formed version label `v<digits>.<digits>.<digits>` assembled from
its three digit runs. -/
def versionOf (d1 d2 d3 : List Char) : List Char :=
  'v' :: (d1 ++ '.' :: (d2 ++ '.' :: d3))

/-- Decidable scan: no suffix of the input matches the lookup's generic
heading pattern `##\s*v\d+\.\d+\.\d+` at its head (i.e. the input contains
no changelog heading occurrence in the lookup sense). -/
def noHeadingScan : List Char → Bool
  | [] => true
  | c :: rest => (headingAtWs (c :: rest)).isNone && noHeadingScan rest

/-- Decidable scan: no suffix of the input matches the extractor heading
pattern `## v\d+\.\d+\.\d+` at its head. -/
def noHeadScan : List Char → Bool
  | [] => true
  | c :: rest => (headingAt (c :: rest)).isNone && noHeadScan rest

/-- The heading `## v<d1>.<d2>.<d3>` as a character list. -/
def headingOf (d1 d2 d3 : List Char) : List Char :=
  '#' :: '#' :: ' ' :: versionOf d1 d2 d3

/-- Right-strip a list of lines from the end: drop trailing all-whitespace
lines and right-strip the last remaining line (the effect of `str.rstrip`
on a newline-joined list of lines). -/
def rstripLines : List (List Char) → List (List Char)
  | [] => []
  | l :: ls =>
    if (rstripLines ls).isEmpty then
      (if (pyRstrip l).isEmpty then [] else [pyRstrip l])
    else l :: rstripLines ls

/-! ## Helper lemmas about `dictSet` -/

/-- Assigning to a key that is already present keeps the key sequence. -/
theorem dictSet_keys {α : Type} (l : List (String × α)) (k : String) (v : α)
    (h : k ∈ l.map Prod.fst) : (dictSet l k v).map Prod.fst = l.map Prod.fst := by
  induction l with
  | nil => simp at h
  | cons p rest ih =>
    obtain ⟨k', v'⟩ := p
    by_cases hk : k' = k
    · subst hk; simp [dictSet]
    · simp only [List.map_cons] at h ⊢
      simp only [dictSet, if_neg hk]
      simp only [List.map_cons]
      rcases List.mem_cons.mp h with h | h
      · exact absurd h.symm hk
      · rw [ih h]

/-- After an assignment the assigned key contains the new value. -/
theorem dictSet_lookup_self {α : Type} (l : List (String × α)) (k : String) (v : α) :
    List.lookup k (dictSet l k v) = some v := by
  induction l with
  | nil => simp [dictSet, List.lookup]
  | cons p rest ih =>
    obtain ⟨k', v'⟩ := p
    by_cases hk : k' = k
    · subst hk; simp [dictSet, List.lookup]
    · simp only [dictSet, if_neg hk, List.lookup]
      have hbe : (k == k') = false :=
        beq_eq_false_iff_ne.mpr (fun hh => hk hh.symm)
      rw [hbe]
      exact ih

/-- An assignment leaves every other key unchanged. -/
theorem dictSet_lookup_other {α : Type} (l : List (String × α)) (k k' : String) (v : α)
    (h : k' ≠ k) : List.lookup k' (dictSet l k v) = List.lookup k' l := by
  induction l with
  | nil =>
    simp only [dictSet, List.lookup]
    rw [beq_eq_false_iff_ne.mpr h]
  | cons p rest ih =>
    obtain ⟨k₀, v₀⟩ := p
    by_cases hk : k₀ = k
    · subst hk
      simp only [dictSet, if_pos rfl, List.lookup]
      rw [beq_eq_false_iff_ne.mpr h]
    · simp only [dictSet, if_neg hk, List.lookup]
      cases hbe : (k' == k₀) with
      | true => rfl
      | false => exact ih

/-! ## Claim C8 -/

/-- C8: for every well-formed JSON metadata object that has a `"version"`
key, `update_package_version` rewrites the `"version"` value to the new
version while every other key keeps its value and the original key order
is preserved. -/
theorem c8_theorem (data : List (String × String)) (newVersion : String)
    (hmem : "version" ∈ data.map Prod.fst) :
    update_package_version newVersion (.valid data) =
      .ok (.valid (dictSet data "version" newVersion)) ∧
    (dictSet data "version" newVersion).map Prod.fst = data.map Prod.fst ∧
    List.lookup "version" (dictSet data "version" newVersion) = some newVersion ∧
    ∀ k, k ≠ "version" →
      List.lookup k (dictSet data "version" newVersion) = List.lookup k data := by
  refine ⟨rfl, dictSet_keys data "version" newVersion hmem,
    dictSet_lookup_self data "version" newVersion,
    fun k hk => dictSet_lookup_other data "version" k newVersion hk⟩

/-- C8 witness: the spec's `{"name": "x", "version": "0.1.0"}` scenario,
updated to `"0.2.0"`. -/
theorem c8_witness :
    List.lookup "version" (dictSet [("name", "x"), ("version", "0.1.0")] "version" "0.2.0") =
      some "0.2.0" ∧
    (dictSet [("name", "x"), ("version", "0.1.0")] "version" "0.2.0").map Prod.fst =
      ["name", "version"] :=
  ⟨(c8_theorem [("name", "x"), ("version", "0.1.0")] "0.2.0" (by decide)).2.2.1, by decide⟩

/-! ## Claim C10 -/

/-- C10: `get_previous_version` returns `None` on an empty tag list and the
last tag's name otherwise; `generate_changelog_entry` proceeds in both
cases, interpolating the result (possibly the text `"None"`) into the
generation prompt rather than failing. -/
theorem c10_theorem :
    get_previous_version [] = none ∧
    (∀ (ts : List String) (t : String), get_previous_version (ts ++ [t]) = some t) ∧
    (∀ (version : String) (tags : List String), ∃ a b : String,
      changelogPrompt version tags = a ++ pyStrOfOpt (get_previous_version tags) ++ b) ∧
    (∀ (version : String) (tags : List String) (out : List Char), ∃ entry,
      generate_changelog_entry version tags 0 out = .ok entry) := by
  refine ⟨rfl, ?_, ?_, ?_⟩
  · intro ts t
    simp [get_previous_version, List.getLast?_concat]
  · intro version tags
    refine ⟨"\nExamine the git history since the last tag (",
      ") and generate a new CHANGELOG entry for " ++ version ++
      ".\nThe entry format should be consistent with the existing CHANGELOG.md file.\nDo not output anything other than the new CHANGELOG entry.\n\nFor example, a perfect output looks like this:\n\n## vX.Y.Z\n\n### Fixed\n- A bug fix.\n\n### Improved\n- An improvement.\n\nYour output should be only the markdown, starting with `## " ++
      version ++ "`.\n    ", ?_⟩
    simp [changelogPrompt, String.append_assoc]
  · intro version tags out
    exact ⟨_, rfl⟩

/-! ## Claim C4 -/

/-- C4 counterexample: with the changelog file absent, a generation-path run
(`--no-tag`, generation succeeding) completes with exit code zero — the
missing file is only printed by `insert_at_front_of_file`, not raised —
contradicting the claim that the absence is a hard failure in whichever
mode the changelog is first touched. -/
theorem c4_counterexample :
    mainRun ⟨"v1.0.0", false, true, false, false, false⟩
      ⟨none, [], 0, ("## v1.0.0\n- fix".data), .absent, 0⟩ =
    .ok ["Releasing version: v1.0.0",
         "Error: File 'CHANGELOG.md' not found.",
         "Changelog updated at CHANGELOG.md",
         "No-tag mode - not creating tag, pushing, or releasing."] := by rfl

/-- C4 amended: if the changelog file is absent, a lookup-mode run
(`--skip-gen`) raises the file-not-found error to the caller and the
process exits non-zero; in the generation path the error is caught inside
`insert_at_front_of_file`, a message is printed, and the run continues
(with `--no-tag` it completes with exit code zero). -/
theorem c4_amended :
    (∀ (args : Args) (env : Env), args.skip_gen = true → env.changelog = none →
       mainRun args env = .error (.fileNotFound changelogPath)) ∧
    (∀ (args : Args) (env : Env), args.skip_gen = false → args.dry_run = false →
       args.no_tag = true → env.copilotRc = 0 → env.changelog = none →
       ∃ tr, mainRun args env = .ok tr) := by
  constructor
  · intro args env hsg hcl
    simp [mainRun, hsg, hcl, get_changelog_entry]
  · intro args env hsg hdr hnt hrc hcl
    refine ⟨["Releasing version: " ++ args.version,
         "Error: File '" ++ changelogPath ++ "' not found.",
         "Changelog updated at " ++ changelogPath,
         "No-tag mode - not creating tag, pushing, or releasing."], ?_⟩
    simp [mainRun, hsg, hdr, hnt, hrc, hcl, generate_changelog_entry,
      insert_at_front_of_file]

/-- C4 witness: a concrete lookup-mode run with the changelog absent exits
with the file-not-found error. -/
theorem c4_witness :
    mainRun ⟨"v1.0.0", false, false, false, false, true⟩ ⟨none, [], 0, [], .absent, 0⟩ =
      .error (.fileNotFound changelogPath) :=
  c4_amended.1 ⟨"v1.0.0", false, false, false, false, true⟩ ⟨none, [], 0, [], .absent, 0⟩ rfl rfl

/-! ## Concrete counterexamples for C1, C2, C3, C9 -/

/-- C1 counterexample: `lookup("v1.2.3", d)` on a document with a following
section returns the span *including* the next `## v9.9.9` heading marker,
not the span ending before it as the claim states. -/
theorem c1_counterexample :
    get_changelog_entry ("v1.2.3".data) "CHANGELOG.md"
      (some ("## v1.2.3\nbody\n\n## v9.9.9\nother".data)) =
      .ok ("## v1.2.3\nbody\n\n## v9.9.9".data) ∧
    ("## v1.2.3\nbody\n\n## v9.9.9".data) ≠ ("## v1.2.3\nbody".data) :=
  ⟨by rfl, by decide⟩

/-- C2 counterexample: `extract` is not idempotent — on
`"## v1.0.0\n``` x"` the fence removal re-introduces a leading space, so a
second extraction strips it and changes the result. -/
theorem c2_counterexample :
    extract_changelog_from_text (extract_changelog_from_text ("## v1.0.0\n``` x".data)) ≠
      extract_changelog_from_text ("## v1.0.0\n``` x".data) := by decide

/-- C3 counterexample: a document whose only heading is `## v1.2.30`
*does* satisfy a lookup for `"v1.2.3"` (the escaped version is matched as a
prefix of the heading label, with no boundary after it), contradicting the
exact-string-equality claim. -/
theorem c3_counterexample :
    get_changelog_entry ("v1.2.3".data) "CHANGELOG.md" (some ("## v1.2.30\nbody".data)) =
      .ok ("## v1.2.30\nbody".data) := by rfl

/-- C9 counterexample: `\s*` in the lookup pattern also matches newlines,
so on the document `"##\nv1.2.3\nbody"` the lookup succeeds and returns a
string whose first line is just `"##"`, which matches neither the strict
heading pattern `## v<int>.<int>.<int>` nor its whitespace-tolerant
variant — refuting the claimed invariant for the lookup routine. -/
theorem c9_counterexample :
    get_changelog_entry ("v1.2.3".data) "CHANGELOG.md" (some ("##\nv1.2.3\nbody".data)) =
      .ok ("##\nv1.2.3\nbody".data) ∧
    headingAt (("##\nv1.2.3\nbody".data).takeWhile (fun c => !(isBreakChar c))) = none ∧
    headingAtWs (("##\nv1.2.3\nbody".data).takeWhile (fun c => !(isBreakChar c))) = none :=
  ⟨by rfl, by decide, by decide⟩

/-! ## Lookup-pattern match characterisation -/


theorem expectChar_cons_self (c : Char) (xs : List Char) : expectChar c (c :: xs) = some xs := by
  simp [expectChar]

theorem expectChar_cons_ne (c x : Char) (xs : List Char) (h : x ≠ c) :
    expectChar c (x :: xs) = none := by
  simp [expectChar, h]

theorem expectChar_nil (c : Char) : expectChar c [] = none := rfl

theorem tryLit_some (lit cs : List Char) (K : Nat) (c1 : Nat)
    (h : tryLit lit cs K = some c1) :
    ∃ k, k ≤ K ∧ lit.isPrefixOf (cs.drop k) = true ∧ c1 = k + lit.length := by
  induction K with
  | zero =>
    simp only [tryLit] at h
    split at h
    · refine ⟨0, Nat.le_refl 0, by simpa using (by assumption : lit.isPrefixOf cs = true), ?_⟩
      cases h
      omega
    · cases h
  | succ K ih =>
    simp only [tryLit] at h
    split at h
    · refine ⟨K + 1, Nat.le_refl _, by assumption, ?_⟩
      cases h
      omega
    · obtain ⟨k, hk, hp, hc⟩ := ih h
      exact ⟨k, Nat.le_succ_of_le hk, hp, hc⟩

theorem tryLit_isSome (lit cs : List Char) (K k : Nat) (hk : k ≤ K)
    (h : lit.isPrefixOf (cs.drop k) = true) : (tryLit lit cs K).isSome = true := by
  induction K with
  | zero =>
    have hz : k = 0 := Nat.le_zero.mp hk
    subst hz
    rw [List.drop_zero] at h
    simp [tryLit, h]
  | succ K ih =>
    simp only [tryLit]
    split
    · rfl
    · rename_i hnp
      rcases Nat.lt_or_ge k (K + 1) with hlt | hge
      · exact ih (Nat.lt_succ_iff.mp hlt)
      · have hke : k = K + 1 := Nat.le_antisymm hk hge
        subst hke
        rw [h] at hnp
        exact absurd rfl hnp

theorem findEndAux_nil (b : Nat) : findEndAux [] b = some b := rfl

theorem findEndAux_cons (c : Char) (cs : List Char) (b : Nat) :
    findEndAux (c :: cs) b =
      match tryCs (c :: cs) (wsRunLen (c :: cs)) with
      | some e => some (b + e)
      | none => findEndAux cs (b + 1) := rfl

theorem findEndAux_isSome : ∀ (cs : List Char) (b : Nat), (findEndAux cs b).isSome = true := by
  intro cs
  induction cs with
  | nil =>
    intro b
    rw [findEndAux_nil]
    rfl
  | cons c cs ih =>
    intro b
    rw [findEndAux_cons]
    cases h : tryCs (c :: cs) (wsRunLen (c :: cs)) with
    | some e => rfl
    | none =>
      simp only
      exact ih (b + 1)

theorem take_all_isPySpace (cs : List Char) (k : Nat) (hk : k ≤ wsRunLen cs) :
    (cs.take k).all isPySpace = true := by
  rw [List.all_eq_true]
  intro c hc
  have h1 : c ∈ (cs.takeWhile isPySpace).take k := by
    have h2 := List.takeWhile_append_dropWhile (l := cs) (p := isPySpace)
    rw [← h2] at hc
    rwa [List.take_append_of_le_length hk] at hc
  exact List.mem_takeWhile_imp (List.mem_of_mem_take h1)

theorem wsRunLen_ge (ws tail : List Char) (h : ws.all isPySpace = true) :
    ws.length ≤ wsRunLen (ws ++ tail) := by
  unfold wsRunLen
  rw [List.takeWhile_append_of_pos (by simpa [List.all_eq_true] using h)]
  simp

theorem matchFrom_some_of_split (v ws post : List Char) (hws : ws.all isPySpace = true) :
    (matchFrom v ('#' :: '#' :: (ws ++ v ++ post))).isSome = true := by
  have hpre : v.isPrefixOf ((ws ++ v ++ post).drop ws.length) = true := by
    rw [List.append_assoc, List.drop_left]
    exact List.isPrefixOf_iff_prefix.mpr ⟨post, rfl⟩
  have hlit := tryLit_isSome v (ws ++ v ++ post) (wsRunLen (ws ++ v ++ post)) ws.length
    (by simpa using wsRunLen_ge ws (v ++ post) hws) hpre
  rw [matchFrom, expectChar_cons_self, Option.some_bind, expectChar_cons_self,
    Option.some_bind]
  cases htl : tryLit v (ws ++ v ++ post) (wsRunLen (ws ++ v ++ post)) with
  | none => rw [htl] at hlit; cases hlit
  | some c1 =>
    simp only [Option.some_bind]
    have hfe := findEndAux_isSome ((((ws ++ v ++ post).drop c1)).drop
      (wsRunLen ((ws ++ v ++ post).drop c1))) 0
    cases hfe2 : findEndAux ((((ws ++ v ++ post).drop c1)).drop
      (wsRunLen ((ws ++ v ++ post).drop c1))) 0 with
    | none => rw [hfe2] at hfe; cases hfe
    | some e => rfl

theorem matchFrom_split_of_some (v cs : List Char) (h : (matchFrom v cs).isSome = true) :
    ∃ ws post, cs = '#' :: '#' :: (ws ++ v ++ post) ∧ ws.all isPySpace = true := by
  rcases cs with _ | ⟨c1, cs⟩
  · rw [matchFrom, expectChar_nil] at h
    cases h
  by_cases h1 : c1 = '#'
  case neg =>
    rw [matchFrom, expectChar_cons_ne '#' c1 cs h1] at h
    cases h
  subst h1
  rcases cs with _ | ⟨c2, rest⟩
  · rw [matchFrom, expectChar_cons_self, Option.some_bind, expectChar_nil] at h
    cases h
  by_cases h2 : c2 = '#'
  case neg =>
    rw [matchFrom, expectChar_cons_self, Option.some_bind,
      expectChar_cons_ne '#' c2 rest h2] at h
    cases h
  subst h2
  rw [matchFrom, expectChar_cons_self, Option.some_bind, expectChar_cons_self,
    Option.some_bind] at h
  cases htl : tryLit v rest (wsRunLen rest) with
  | none => rw [htl] at h; cases h
  | some c1 =>
    obtain ⟨k, hk, hp, _⟩ := tryLit_some v rest (wsRunLen rest) c1 htl
    obtain ⟨post, hpost⟩ := List.isPrefixOf_iff_prefix.mp hp
    refine ⟨rest.take k, post, ?_, take_all_isPySpace rest k hk⟩
    rw [List.append_assoc, hpost, List.take_append_drop]


theorem matchFrom_nil (v : List Char) : matchFrom v [] = none := by
  rw [matchFrom, expectChar_nil]
  rfl

theorem reSearch_some_iff (v d : List Char) :
    (reSearch v d).isSome = true ↔
    ∃ pre rest, d = pre ++ rest ∧ (matchFrom v rest).isSome = true := by
  induction d with
  | nil =>
    constructor
    · intro h
      cases h
    · rintro ⟨pre, rest, hd, hm⟩
      rcases List.append_eq_nil.mp hd.symm with ⟨hpre, hrest⟩
      subst hrest
      rw [matchFrom_nil] at hm
      cases hm
  | cons c cs ih =>
    rw [reSearch]
    cases hm : matchFrom v (c :: cs) with
    | some l =>
      simp only [Option.isSome_some, true_iff]
      exact ⟨[], c :: cs, rfl, by rw [hm]; rfl⟩
    | none =>
      simp only [Option.isSome_map']
      rw [ih]
      constructor
      · rintro ⟨pre, rest, hd, hmm⟩
        exact ⟨c :: pre, rest, by rw [hd, List.cons_append], hmm⟩
      · rintro ⟨pre, rest, hd, hmm⟩
        rcases pre with _ | ⟨p0, pre'⟩
        · simp only [List.nil_append] at hd
          rw [← hd] at hmm
          rw [hm] at hmm
          cases hmm
        · rw [List.cons_append] at hd
          exact ⟨pre', rest, (List.cons.injEq .. ▸ hd).2, hmm⟩

theorem lookup_ok_iff (v : List Char) (p : String) (d : List Char) :
    (∃ r, get_changelog_entry v p (some d) = .ok r) ↔
    ∃ pre ws post, d = pre ++ '#' :: '#' :: (ws ++ v ++ post) ∧ ws.all isPySpace = true := by
  constructor
  · rintro ⟨r, hr⟩
    cases hs : reSearch v d with
    | none =>
      rw [get_changelog_entry, hs] at hr
      cases hr
    | some pr =>
      have hss : (reSearch v d).isSome = true := by rw [hs]; rfl
      obtain ⟨pre, rest, hd, hm⟩ := (reSearch_some_iff v d).mp hss
      obtain ⟨ws, post, hrest, hws⟩ := matchFrom_split_of_some v rest hm
      exact ⟨pre, ws, post, by rw [hd, hrest], hws⟩
  · rintro ⟨pre, ws, post, hd, hws⟩
    have hm : (matchFrom v ('#' :: '#' :: (ws ++ v ++ post))).isSome = true :=
      matchFrom_some_of_split v ws post hws
    have hss : (reSearch v d).isSome = true :=
      (reSearch_some_iff v d).mpr ⟨pre, _, hd, hm⟩
    cases hs : reSearch v d with
    | none => rw [hs] at hss; cases hss
    | some pr =>
      exact ⟨pyStrip ((d.drop pr.1).take pr.2), by rw [get_changelog_entry, hs]⟩

theorem noSplit_of_scan (v d : List Char) (h : reSearch v d = none) :
    ¬ ∃ pre ws post, d = pre ++ '#' :: '#' :: (ws ++ v ++ post) ∧ ws.all isPySpace = true := by
  intro hsplit
  obtain ⟨r, hr⟩ := (lookup_ok_iff v "x" d).mpr hsplit
  rw [get_changelog_entry, h] at hr
  cases hr

/-- C7: for every version string and document in which no heading for the
version exists (no `## <ws> <version>` substring), the lookup fails by
raising an error that carries both the requested version and the document
path, propagating to the caller rather than returning an empty value. -/
theorem c7_theorem (v : List Char) (p : String) (d : List Char)
    (h : ¬ ∃ pre ws post, d = pre ++ '#' :: '#' :: (ws ++ v ++ post) ∧
      ws.all isPySpace = true) :
    get_changelog_entry v p (some d) = .error (.entryNotFound v p) := by
  cases hs : reSearch v d with
  | some pr =>
    exfalso
    refine h ((lookup_ok_iff v p d).mp ⟨pyStrip ((d.drop pr.1).take pr.2), ?_⟩)
    rw [get_changelog_entry, hs]
  | none =>
    rw [get_changelog_entry, hs]

/-- C7 witness: the spec scenario — a document holding only `## v1.0.0`
looked up for `v2.0.0` raises the not-found error with both fields. -/
theorem c7_witness :
    get_changelog_entry ("v2.0.0".data) "CHANGELOG.md" (some ("## v1.0.0\nbody text".data)) =
      .error (.entryNotFound ("v2.0.0".data) "CHANGELOG.md") :=
  c7_theorem ("v2.0.0".data) "CHANGELOG.md" ("## v1.0.0\nbody text".data)
    (noSplit_of_scan ("v2.0.0".data) ("## v1.0.0\nbody text".data) (by rfl))

/-! ## Claims C3 and C7 -/

/-- C3 amended: version matching in `get_changelog_entry` is a *substring*
test, not exact equality of the heading label: the lookup succeeds exactly
when the document contains `##`, then whitespace, then the (escaped)
version string as a contiguous substring — with no boundary required after
the version, so a lookup for `"v1.2.3"` is satisfied by a heading
`## v1.2.30`. -/
theorem c3_amended (v : List Char) (p : String) (d : List Char) :
    (∃ r, get_changelog_entry v p (some d) = .ok r) ↔
    ∃ pre ws post, d = pre ++ '#' :: '#' :: (ws ++ v ++ post) ∧ ws.all isPySpace = true :=
  lookup_ok_iff v p d

/-! ## Extractor-side machinery and claims C5, C6, C9 -/


theorem expectChar_some (c : Char) (cs r : List Char) (h : expectChar c cs = some r) :
    cs = c :: r := by
  cases cs with
  | nil => cases h
  | cons x xs =>
    simp only [expectChar] at h
    split at h
    · cases h
      rename_i hx
      rw [hx]
    · cases h

theorem head?_dropWhile_not (p : Char → Bool) (l : List Char) (c : Char)
    (h : (l.dropWhile p).head? = some c) : p c = false := by
  induction l with
  | nil => cases h
  | cons x xs ih =>
    rw [List.dropWhile_cons] at h
    split at h
    · exact ih h
    · rename_i hx
      cases h
      simpa using hx

theorem digitsOne_some (cs r : List Char) (h : digitsOne cs = some r) :
    ∃ d, d ≠ [] ∧ d.all Char.isDigit = true ∧ cs = d ++ r ∧
      (∀ c, r.head? = some c → c.isDigit = false) := by
  cases cs with
  | nil => cases h
  | cons x xs =>
    simp only [digitsOne] at h
    split at h
    · cases h
      refine ⟨x :: xs.takeWhile Char.isDigit, by simp, ?_, ?_, ?_⟩
      · simp only [List.all_cons, Bool.and_eq_true]
        refine ⟨by assumption, ?_⟩
        rw [List.all_eq_true]
        intro a ha
        exact List.mem_takeWhile_imp ha
      · rw [List.cons_append, List.takeWhile_append_dropWhile]
      · intro c hc
        exact head?_dropWhile_not Char.isDigit xs c hc
    · cases h

theorem digitsOne_of_digits (d rest : List Char) (hne : d ≠ [])
    (hd : d.all Char.isDigit = true)
    (hrest : ∀ c, rest.head? = some c → c.isDigit = false) :
    digitsOne (d ++ rest) = some rest := by
  cases d with
  | nil => exact absurd rfl hne
  | cons x xs =>
    simp only [List.all_cons, Bool.and_eq_true] at hd
    obtain ⟨hx, hxs⟩ := hd
    rw [List.cons_append]
    simp only [digitsOne, if_pos hx]
    rw [List.dropWhile_append_of_pos (by simpa [List.all_eq_true] using hxs)]
    congr 1
    cases rest with
    | nil => rfl
    | cons c cs =>
      rw [List.dropWhile_cons_of_neg]
      simpa using hrest c rfl

theorem digitsOne_append_isSome (d rest : List Char) (hne : d ≠ [])
    (hd : d.all Char.isDigit = true) : ∃ r, digitsOne (d ++ rest) = some r := by
  cases d with
  | nil => exact absurd rfl hne
  | cons x xs =>
    simp only [List.all_cons, Bool.and_eq_true] at hd
    obtain ⟨hx, _⟩ := hd
    rw [List.cons_append]
    simp only [digitsOne, if_pos hx]
    exact ⟨_, rfl⟩

theorem versionOf_append (d1 d2 d3 rest : List Char) :
    versionOf d1 d2 d3 ++ rest = 'v' :: (d1 ++ '.' :: (d2 ++ '.' :: (d3 ++ rest))) := by
  simp [versionOf]

theorem headingAt_headingOf_isSome (d1 d2 d3 rest : List Char)
    (h1 : d1 ≠ []) (h2 : d2 ≠ []) (h3 : d3 ≠ [])
    (a1 : d1.all Char.isDigit = true) (a2 : d2.all Char.isDigit = true)
    (a3 : d3.all Char.isDigit = true) :
    (headingAt (headingOf d1 d2 d3 ++ rest)).isSome = true := by
  have hshape : headingOf d1 d2 d3 ++ rest =
      '#' :: '#' :: ' ' :: ('v' :: (d1 ++ '.' :: (d2 ++ '.' :: (d3 ++ rest)))) := by
    simp [headingOf, versionOf]
  rw [hshape]
  obtain ⟨r3, hr3⟩ := digitsOne_append_isSome d3 rest h3 a3
  have hD1 : digitsOne (d1 ++ '.' :: (d2 ++ '.' :: (d3 ++ rest))) =
      some ('.' :: (d2 ++ '.' :: (d3 ++ rest))) :=
    digitsOne_of_digits d1 _ h1 a1 (by intro c hc; cases hc; decide)
  have hD2 : digitsOne (d2 ++ '.' :: (d3 ++ rest)) = some ('.' :: (d3 ++ rest)) :=
    digitsOne_of_digits d2 _ h2 a2 (by intro c hc; cases hc; decide)
  simp only [headingAt, headingRest, expectChar, if_pos, Option.some_bind,
    reduceIte, hD1, hD2, hr3]
  rfl

theorem headingAt_decomp (cs : List Char) (l : Nat) (h : headingAt cs = some l) :
    ∃ d1 d2 d3 rest, cs = headingOf d1 d2 d3 ++ rest ∧
      d1 ≠ [] ∧ d2 ≠ [] ∧ d3 ≠ [] ∧
      d1.all Char.isDigit = true ∧ d2.all Char.isDigit = true ∧
      d3.all Char.isDigit = true ∧
      (∀ c, rest.head? = some c → c.isDigit = false) ∧
      l = 6 + (d1.length + d2.length + d3.length) := by
  simp only [headingAt, Option.map_eq_some'] at h
  obtain ⟨r, hr, hl⟩ := h
  simp only [headingRest, Option.bind_eq_some] at hr
  obtain ⟨r1, h1, r2, h2, r3, h3, r4, h4, r5, h5, r6, h6, r7, h7, r8, h8, h9⟩ := hr
  have e1 := expectChar_some '#' cs r1 h1
  have e2 := expectChar_some '#' r1 r2 h2
  have e3 := expectChar_some ' ' r2 r3 h3
  have e4 := expectChar_some 'v' r3 r4 h4
  obtain ⟨d1, hd1ne, hd1a, hd1eq, _⟩ := digitsOne_some r4 r5 h5
  have e6 := expectChar_some '.' r5 r6 h6
  obtain ⟨d2, hd2ne, hd2a, hd2eq, _⟩ := digitsOne_some r6 r7 h7
  have e8 := expectChar_some '.' r7 r8 h8
  obtain ⟨d3, hd3ne, hd3a, hd3eq, hd3h⟩ := digitsOne_some r8 r h9
  refine ⟨d1, d2, d3, r, ?_, hd1ne, hd2ne, hd3ne, hd1a, hd2a, hd3a, hd3h, ?_⟩
  · rw [e1, e2, e3, e4, hd1eq, e6, hd2eq, e8, hd3eq]
    simp [headingOf, versionOf]
  · subst hl
    rw [e1, e2, e3, e4, hd1eq, e6, hd2eq, e8, hd3eq]
    simp only [List.length_cons, List.length_append]
    omega

theorem headingOf_chars (d1 d2 d3 : List Char)
    (a1 : d1.all Char.isDigit = true) (a2 : d2.all Char.isDigit = true)
    (a3 : d3.all Char.isDigit = true) (c : Char) (hc : c ∈ headingOf d1 d2 d3) :
    c = '#' ∨ c = ' ' ∨ c = 'v' ∨ c = '.' ∨ c.isDigit = true := by
  simp only [headingOf, versionOf, List.mem_cons, List.mem_append] at hc
  rw [List.all_eq_true] at a1 a2 a3
  rcases hc with h | h | h | h | h
  · exact Or.inl h
  · exact Or.inl h
  · exact Or.inr (Or.inl h)
  · exact Or.inr (Or.inr (Or.inl h))
  · rcases h with h | h
    · exact Or.inr (Or.inr (Or.inr (Or.inr (a1 c h))))
    · rcases h with h | h
      · exact Or.inr (Or.inr (Or.inr (Or.inl h)))
      · rcases h with h | h
        · exact Or.inr (Or.inr (Or.inr (Or.inr (a2 c h))))
        · rcases h with h | h
          · exact Or.inr (Or.inr (Or.inr (Or.inl h)))
          · exact Or.inr (Or.inr (Or.inr (Or.inr (a3 c h))))

theorem isBreak_not_digit (c : Char) (h : isBreakChar c = true) : c.isDigit = false := by
  simp only [isBreakChar, Bool.or_eq_true, decide_eq_true_eq] at h
  rcases h with ((((((((h | h) | h) | h) | h) | h) | h) | h) | h) | h <;> (subst h; decide)

theorem headingOf_no_break (d1 d2 d3 : List Char)
    (a1 : d1.all Char.isDigit = true) (a2 : d2.all Char.isDigit = true)
    (a3 : d3.all Char.isDigit = true) (c : Char) (hc : c ∈ headingOf d1 d2 d3) :
    isBreakChar c = false := by
  cases hb : isBreakChar c
  · rfl
  · exfalso
    rcases headingOf_chars d1 d2 d3 a1 a2 a3 c hc with h | h | h | h | h
    · subst h; exact absurd hb (by decide)
    · subst h; exact absurd hb (by decide)
    · subst h; exact absurd hb (by decide)
    · subst h; exact absurd hb (by decide)
    · rw [isBreak_not_digit c hb] at h; cases h

theorem headingOf_no_tick (d1 d2 d3 : List Char)
    (a1 : d1.all Char.isDigit = true) (a2 : d2.all Char.isDigit = true)
    (a3 : d3.all Char.isDigit = true) (c : Char) (hc : c ∈ headingOf d1 d2 d3) :
    c ≠ '`' := by
  rcases headingOf_chars d1 d2 d3 a1 a2 a3 c hc with h | h | h | h | h <;>
    first
    | (rw [h]; decide)
    | (intro he; subst he; simp at h)

theorem headingAt_isSome_append (u w : List Char) (k : Nat) (h : headingAt u = some k) :
    (headingAt (u ++ w)).isSome = true := by
  obtain ⟨d1, d2, d3, rest, hu, h1, h2, h3, a1, a2, a3, _, _⟩ := headingAt_decomp u k h
  rw [hu, List.append_assoc]
  exact headingAt_headingOf_isSome d1 d2 d3 (rest ++ w) h1 h2 h3 a1 a2 a3

theorem headingAt_none_of_head (cs : List Char) (c : Char) (hc : cs.head? = some c)
    (h : c ≠ '#') : headingAt cs = none := by
  cases cs with
  | nil => cases hc
  | cons x xs =>
    cases hc
    simp [headingAt, headingRest, expectChar, h]

theorem headingAt_none_of_second (c : Char) (xs : List Char) (h : c ≠ '#') :
    headingAt ('#' :: c :: xs) = none := by
  simp [headingAt, headingRest, expectChar, h]

theorem headingAt_of_append_newline (u w : List Char) (k : Nat)
    (h : headingAt (u ++ '\n' :: w) = some k) : (headingAt u).isSome = true := by
  obtain ⟨d1, d2, d3, rest, hu, h1, h2, h3, a1, a2, a3, _, hk⟩ :=
    headingAt_decomp (u ++ '\n' :: w) k h
  by_cases hlen : (headingOf d1 d2 d3).length ≤ u.length
  · have hpre : headingOf d1 d2 d3 <+: u := by
      have htake : (u ++ '\n' :: w).take (headingOf d1 d2 d3).length = headingOf d1 d2 d3 := by
        rw [hu, List.take_append_of_le_length (Nat.le_refl _), List.take_length]
      rw [List.take_append_of_le_length hlen] at htake
      exact htake ▸ List.take_prefix _ u
    obtain ⟨t, ht⟩ := hpre
    rw [← ht]
    exact headingAt_headingOf_isSome d1 d2 d3 _ h1 h2 h3 a1 a2 a3
  · exfalso
    push_neg at hlen
    have hnl : '\n' ∈ headingOf d1 d2 d3 := by
      have hidx : (u ++ '\n' :: w)[u.length]? = some '\n' := by
        rw [List.getElem?_append_right (Nat.le_refl _)]
        simp
      rw [hu, List.getElem?_append_left hlen] at hidx
      exact List.getElem?_mem hidx
    have := headingOf_no_break d1 d2 d3 a1 a2 a3 '\n' hnl
    simp [isBreakChar] at this

theorem versionTail_no_hash (d1 d2 d3 : List Char)
    (a1 : d1.all Char.isDigit = true) (a2 : d2.all Char.isDigit = true)
    (a3 : d3.all Char.isDigit = true) (c : Char)
    (hc : c ∈ ' ' :: versionOf d1 d2 d3) : c ≠ '#' := by
  have hc2 : c ∈ headingOf d1 d2 d3 := by
    simp only [headingOf]
    simp only [List.mem_cons] at hc ⊢
    tauto
  rcases headingOf_chars d1 d2 d3 a1 a2 a3 c hc2 with h | h | h | h | h
  · -- c = '#' is possible via membership, so we must use hc directly instead
    subst h
    simp only [List.mem_cons] at hc
    rcases hc with h | h
    · cases h
    · exfalso
      simp only [versionOf, List.mem_cons, List.mem_append] at h
      rw [List.all_eq_true] at a1 a2 a3
      rcases h with h | h
      · cases h
      · rcases h with h | h
        · exact absurd (a1 _ h) (by decide)
        · rcases h with h | h
          · cases h
          · rcases h with h | h
            · exact absurd (a2 _ h) (by decide)
            · rcases h with h | h
              · cases h
              · exact absurd (a3 _ h) (by decide)
  · subst h; decide
  · subst h; decide
  · subst h; decide
  · intro he; subst he; simp at h

theorem headingOf_length (d1 d2 d3 : List Char) :
    (headingOf d1 d2 d3).length = 6 + (d1.length + d2.length + d3.length) := by
  simp only [headingOf, versionOf, List.length_cons, List.length_append]
  omega

theorem headingAt_none_inside (cs : List Char) (l : Nat) (h : headingAt cs = some l)
    (i : Nat) (hge : 1 ≤ i) (hlt : i < l) : headingAt (cs.drop i) = none := by
  obtain ⟨d1, d2, d3, rest, hu, h1, h2, h3, a1, a2, a3, _, hk⟩ := headingAt_decomp cs l h
  subst hk
  have hshape : cs = '#' :: '#' :: ' ' :: (versionOf d1 d2 d3 ++ rest) := by
    rw [hu]; simp [headingOf]
  have hvlen : (versionOf d1 d2 d3).length = 3 + (d1.length + d2.length + d3.length) := by
    simp only [versionOf, List.length_cons, List.length_append]
    omega
  rcases Nat.lt_or_ge i 3 with hi3 | hi3
  · interval_cases i
    · rw [hshape]
      exact headingAt_none_of_second ' ' _ (by decide)
    · rw [hshape]
      exact headingAt_none_of_head _ ' ' rfl (by decide)
  · have hsub : i - 3 < (versionOf d1 d2 d3).length := by omega
    have hdrop : cs.drop i = (versionOf d1 d2 d3).drop (i - 3) ++ rest := by
      rw [hshape]
      have hi : i = (i - 3) + 3 := by omega
      rw [hi]
      simp only [List.drop_succ_cons]
      rw [List.drop_append_of_le_length (Nat.le_of_lt hsub)]
      congr 2
    rw [hdrop]
    cases hD : (versionOf d1 d2 d3).drop (i - 3) with
    | nil =>
      exfalso
      have := congrArg List.length hD
      simp only [List.length_drop, List.length_nil] at this
      omega
    | cons c cs' =>
      refine headingAt_none_of_head _ c (by rw [List.cons_append]; rfl) ?_
      have hcmem : c ∈ versionOf d1 d2 d3 :=
        List.drop_subset _ _ (by rw [hD]; exact List.mem_cons_self c cs')
      exact versionTail_no_hash d1 d2 d3 a1 a2 a3 c (List.mem_cons_of_mem ' ' hcmem)

theorem findHead_headingAt (cs : List Char) (s l : Nat) (h : findHead cs = some (s, l)) :
    headingAt (cs.drop s) = some l := by
  induction cs generalizing s with
  | nil => cases h
  | cons c cs ih =>
    rw [findHead] at h
    cases hh : headingAt (c :: cs) with
    | some l0 =>
      rw [hh] at h
      cases h
      exact hh
    | none =>
      rw [hh, Option.map_eq_some'] at h
      obtain ⟨⟨s', l'⟩, hp, he⟩ := h
      cases he
      simpa using ih s' hp

theorem findHead_min (cs : List Char) (s l : Nat) (h : findHead cs = some (s, l))
    (i : Nat) (hi : i < s) : headingAt (cs.drop i) = none := by
  induction cs generalizing s i with
  | nil => cases h
  | cons c cs ih =>
    rw [findHead] at h
    cases hh : headingAt (c :: cs) with
    | some l0 =>
      rw [hh] at h
      cases h
      omega
    | none =>
      rw [hh, Option.map_eq_some'] at h
      obtain ⟨⟨s', l'⟩, hp, he⟩ := h
      cases he
      cases i with
      | zero => simpa using hh
      | succ i' => simpa using ih s' hp i' (by omega)

theorem findHead_none (cs : List Char) (h : findHead cs = none) (i : Nat) :
    headingAt (cs.drop i) = none := by
  induction cs generalizing i with
  | nil =>
    cases i <;> rfl
  | cons c cs ih =>
    rw [findHead] at h
    cases hh : headingAt (c :: cs) with
    | some l0 => rw [hh] at h; cases h
    | none =>
      rw [hh] at h
      simp only [Option.map_eq_none'] at h
      cases i with
      | zero => simpa using hh
      | succ i' => simpa using ih h i'

theorem findHead_isSome_of (cs : List Char) (i l : Nat)
    (h : headingAt (cs.drop i) = some l) : (findHead cs).isSome = true := by
  cases hf : findHead cs with
  | some p => rfl
  | none => rw [findHead_none cs hf i] at h; cases h

theorem findHead_cons_of_headingAt (cs : List Char) (l : Nat) (h : headingAt cs = some l) :
    findHead cs = some (0, l) := by
  cases cs with
  | nil => cases h
  | cons c cs' => rw [findHead, h]

theorem splitlinesGo_nil (acc : List Char) :
    splitlinesGo [] acc = if acc.isEmpty then [] else [acc.reverse] := rfl

theorem splitlinesGo_crlf (rest acc : List Char) :
    splitlinesGo ('\r' :: '\n' :: rest) acc = acc.reverse :: splitlinesGo rest [] := by
  rw [splitlinesGo.eq_def]
  simp [isBreakChar]

theorem splitlinesGo_nb (c : Char) (rest acc : List Char) (h : isBreakChar c = false) :
    splitlinesGo (c :: rest) acc = splitlinesGo rest (c :: acc) := by
  rw [splitlinesGo.eq_def]
  simp only [h]
  rw [if_neg (by simp)]

theorem splitlinesGo_brk (c : Char) (rest acc : List Char) (h : isBreakChar c = true)
    (h2 : c = '\r' → ∀ r, rest ≠ '\n' :: r) :
    splitlinesGo (c :: rest) acc = acc.reverse :: splitlinesGo rest [] := by
  rw [splitlinesGo.eq_def]
  simp only [h, if_true]
  cases rest with
  | nil => rfl
  | cons r rest' =>
    show (if (decide (c = '\r') && decide (r = '\n')) = true
        then acc.reverse :: splitlinesGo rest' []
        else acc.reverse :: splitlinesGo (r :: rest') []) =
      acc.reverse :: splitlinesGo (r :: rest') []
    rw [if_neg]
    intro hb
    simp only [Bool.and_eq_true, decide_eq_true_eq] at hb
    exact h2 hb.1 rest' (by rw [hb.2])

theorem splitlinesGo_append (m : List Char) (hm : ∀ c ∈ m, isBreakChar c = false) :
    ∀ (rest acc : List Char),
      splitlinesGo (m ++ rest) acc = splitlinesGo rest (m.reverse ++ acc) := by
  induction m with
  | nil => intro rest acc; rfl
  | cons c m' ih =>
    intro rest acc
    rw [List.cons_append, splitlinesGo_nb c _ acc (hm c (List.mem_cons_self c m'))]
    rw [ih (fun x hx => hm x (List.mem_cons_of_mem c hx)) rest (c :: acc)]
    congr 1
    simp

theorem splitlines_append_newline (m w : List Char) (hm : ∀ c ∈ m, isBreakChar c = false) :
    splitlines (m ++ '\n' :: w) = m :: splitlines w := by
  unfold splitlines
  rw [splitlinesGo_append m hm ('\n' :: w) []]
  rw [splitlinesGo_brk '\n' w _ (by decide) (by intro h; cases h)]
  simp

theorem splitlines_no_break (m : List Char) (hm : ∀ c ∈ m, isBreakChar c = false) :
    splitlines m = if m.isEmpty then [] else [m] := by
  unfold splitlines
  have hap := splitlinesGo_append m hm [] []
  rw [List.append_nil] at hap
  rw [hap, splitlinesGo_nil]
  cases m with
  | nil => rfl
  | cons c m' => simp

theorem replaceFence_nil : replaceFence [] = [] := rfl

theorem replaceFence_fence (rest : List Char) :
    replaceFence ('`' :: '`' :: '`' :: rest) = replaceFence rest := by
  rw [replaceFence.eq_def]
  simp

theorem replaceFence_cons (c : Char) (rest : List Char) (h : c ≠ '`') :
    replaceFence (c :: rest) = c :: replaceFence rest := by
  rw [replaceFence.eq_def]
  simp [h]

theorem replaceFence_tick (rest : List Char) (h : ∀ r, rest ≠ '`' :: '`' :: r) :
    replaceFence ('`' :: rest) = '`' :: replaceFence rest := by
  rw [replaceFence.eq_def]
  simp only [if_pos rfl]
  cases rest with
  | nil => rfl
  | cons r1 rest1 =>
    cases rest1 with
    | nil => rfl
    | cons r2 rest' =>
      show (if (decide (r1 = '`') && decide (r2 = '`')) = true
          then replaceFence rest'
          else '`' :: replaceFence (r1 :: r2 :: rest')) = _
      rw [if_neg]
      intro hb
      simp only [Bool.and_eq_true, decide_eq_true_eq] at hb
      exact h rest' (by rw [hb.1, hb.2])

theorem fence_pre_of_ticks (l : List Char) (h : ∀ c ∈ l, c = '`') (hl : 3 ≤ l.length) :
    fenceMarker <+: l := by
  match l, hl with
  | a :: b :: c :: rest, _ =>
    have ha := h a (by simp)
    have hb := h b (by simp)
    have hc := h c (by simp)
    subst ha hb hc
    exact ⟨rest, rfl⟩

theorem btPre_le_two_of_noFence (w : List Char) (h : ¬ fenceMarker <:+: w) :
    (w.takeWhile (fun c => c == '`')).length ≤ 2 := by
  by_contra hc
  push_neg at hc
  have hpre : fenceMarker <+: w.takeWhile (fun c => c == '`') :=
    fence_pre_of_ticks _
      (fun c hcm => by simpa using List.mem_takeWhile_imp hcm) (by omega)
  exact h (List.IsPrefix.isInfix (hpre.trans (List.takeWhile_prefix _)))

theorem btPre_ge_two (R : List Char) (h : ('`' :: '`' :: []) <+: R) :
    2 ≤ (R.takeWhile (fun c => c == '`')).length := by
  obtain ⟨t, ht⟩ := h
  subst ht
  simp [List.takeWhile_cons]

theorem replaceFence_noFence_bt : ∀ (n : Nat) (z : List Char), z.length ≤ n →
    (¬ fenceMarker <:+: replaceFence z) ∧
    ((replaceFence z).takeWhile (fun c => c == '`')).length ≤
      min ((z.takeWhile (fun c => c == '`')).length) 2 := by
  intro n
  induction n with
  | zero =>
    intro z hz
    have hzn : z = [] := List.length_eq_zero.mp (Nat.le_zero.mp hz)
    subst hzn
    refine ⟨?_, by simp [replaceFence_nil]⟩
    rw [replaceFence_nil]
    intro hinf
    cases List.eq_nil_of_infix_nil hinf
  | succ n ih =>
    intro z hz
    cases z with
    | nil =>
      refine ⟨?_, by simp [replaceFence_nil]⟩
      rw [replaceFence_nil]
      intro hinf
      cases List.eq_nil_of_infix_nil hinf
    | cons c rest =>
      by_cases hct : c = '`'
      case neg =>
        rw [replaceFence_cons c rest hct]
        obtain ⟨ihn, ihb⟩ := ih rest (by simpa using Nat.le_of_succ_le_succ hz)
        constructor
        · intro hinf
          rcases List.infix_cons_iff.mp hinf with hp | hi
          · obtain ⟨t, ht⟩ := hp
            refine hct ?_
            have hh := congrArg (fun l => l.head?) ht
            simpa [fenceMarker] using hh.symm
          · exact ihn hi
        · rw [List.takeWhile_cons_of_neg (by simpa using hct)]
          simp
      case pos =>
        subst hct
        by_cases hff : ∃ r, rest = '`' :: '`' :: r
        · obtain ⟨r, hr⟩ := hff
          subst hr
          rw [replaceFence_fence r]
          obtain ⟨ihn, ihb⟩ := ih r (by simp at hz ⊢; omega)
          refine ⟨ihn, ?_⟩
          have h2 : ((replaceFence r).takeWhile (fun c => c == '`')).length ≤ 2 :=
            btPre_le_two_of_noFence _ ihn
          have h3 : 2 ≤ ((('`' :: '`' :: '`' :: r) : List Char).takeWhile
              (fun c => c == '`')).length := by
            simp [List.takeWhile_cons]
          omega
        · push_neg at hff
          rw [replaceFence_tick rest hff]
          obtain ⟨ihn, ihb⟩ := ih rest (by simpa using Nat.le_of_succ_le_succ hz)
          have hbrest : (rest.takeWhile (fun c => c == '`')).length ≤ 1 := by
            by_contra hcon
            push_neg at hcon
            have hsplit := (List.takeWhile_append_dropWhile
              (p := fun c => c == '`') (l := rest)).symm
            cases htw : rest.takeWhile (fun c => c == '`') with
            | nil => rw [htw] at hcon; simp at hcon
            | cons a tw1 =>
              cases tw1 with
              | nil => rw [htw] at hcon; simp at hcon
              | cons b tw2 =>
                have ha : a = '`' := by
                  have := List.mem_takeWhile_imp (l := rest) (p := fun c => c == '`')
                    (htw ▸ List.mem_cons_self a (b :: tw2))
                  simpa using this
                have hb : b = '`' := by
                  have := List.mem_takeWhile_imp (l := rest) (p := fun c => c == '`')
                    (htw ▸ List.mem_cons_of_mem a (List.mem_cons_self b tw2))
                  simpa using this
                subst ha hb
                refine hff (tw2 ++ rest.dropWhile (fun c => c == '`')) ?_
                conv_lhs => rw [hsplit]
                rw [htw]
                rfl
          constructor
          · intro hinf
            rcases List.infix_cons_iff.mp hinf with hp | hi
            · obtain ⟨t, ht⟩ := hp
              have h2 : ('`' :: '`' :: []) <+: replaceFence rest := by
                have hth := List.cons.injEq .. ▸ ht
                exact ⟨t, hth.2⟩
              have := btPre_ge_two _ h2
              omega
            · exact ihn hi
          · rw [List.takeWhile_cons_of_pos (by decide),
              List.takeWhile_cons_of_pos (by decide)]
            simp only [List.length_cons]
            omega

theorem replaceFence_noFence (z : List Char) : ¬ fenceMarker <:+: replaceFence z :=
  (replaceFence_noFence_bt z.length z (Nat.le_refl _)).1

theorem infix_cons_lift (c : Char) (l t : List Char) (h : l <:+: t) : l <:+: c :: t := by
  obtain ⟨s, u, hsu⟩ := h
  exact ⟨c :: s, u, by rw [← hsu]; rfl⟩

theorem replaceFence_of_noFence : ∀ (n : Nat) (z : List Char), z.length ≤ n →
    ¬ fenceMarker <:+: z → replaceFence z = z := by
  intro n
  induction n with
  | zero =>
    intro z hz _
    have hzn : z = [] := List.length_eq_zero.mp (Nat.le_zero.mp hz)
    subst hzn
    rfl
  | succ n ih =>
    intro z hz hnf
    cases z with
    | nil => rfl
    | cons c rest =>
      by_cases hct : c = '`'
      case neg =>
        rw [replaceFence_cons c rest hct]
        rw [ih rest (by simpa using Nat.le_of_succ_le_succ hz)
          (fun hi => hnf (infix_cons_lift c _ _ hi))]
      case pos =>
        subst hct
        have hff : ∀ r, rest ≠ '`' :: '`' :: r := by
          intro r hr
          subst hr
          exact hnf (List.IsPrefix.isInfix ⟨r, rfl⟩)
        rw [replaceFence_tick rest hff]
        rw [ih rest (by simpa using Nat.le_of_succ_le_succ hz)
          (fun hi => hnf (infix_cons_lift _ _ _ hi))]

theorem replaceFence_subset : ∀ (n : Nat) (z : List Char), z.length ≤ n →
    ∀ c ∈ replaceFence z, c ∈ z := by
  intro n
  induction n with
  | zero =>
    intro z hz
    have hzn : z = [] := List.length_eq_zero.mp (Nat.le_zero.mp hz)
    subst hzn
    intro c hc
    cases hc
  | succ n ih =>
    intro z hz c hc
    cases z with
    | nil => cases hc
    | cons a rest =>
      by_cases hct : a = '`'
      case neg =>
        rw [replaceFence_cons a rest hct] at hc
        rcases List.mem_cons.mp hc with h | h
        · exact h ▸ List.mem_cons_self a rest
        · exact List.mem_cons_of_mem a
            (ih rest (by simpa using Nat.le_of_succ_le_succ hz) c h)
      case pos =>
        subst hct
        by_cases hff : ∃ r, rest = '`' :: '`' :: r
        · obtain ⟨r, hr⟩ := hff
          subst hr
          rw [replaceFence_fence r] at hc
          have hcr : c ∈ r := ih r (by simp at hz ⊢; omega) c hc
          simp only [List.mem_cons]
          tauto
        · push_neg at hff
          rw [replaceFence_tick rest hff] at hc
          rcases List.mem_cons.mp hc with h | h
          · exact h ▸ List.mem_cons_self _ rest
          · exact List.mem_cons_of_mem _
              (ih rest (by simpa using Nat.le_of_succ_le_succ hz) c h)

theorem replaceFence_append_no_tick (u w : List Char) (hu : ∀ c ∈ u, c ≠ '`') :
    replaceFence (u ++ w) = u ++ replaceFence w := by
  induction u with
  | nil => rfl
  | cons c u' ih =>
    rw [List.cons_append, replaceFence_cons c _ (hu c (List.mem_cons_self c u'))]
    rw [ih (fun x hx => hu x (List.mem_cons_of_mem c hx))]
    rfl

theorem pyRstrip_decomp (z : List Char) :
    ∃ t, z = pyRstrip z ++ t ∧ t.all isPySpace = true := by
  refine ⟨(z.reverse.takeWhile isPySpace).reverse, ?_, ?_⟩
  · unfold pyRstrip
    have hz := congrArg List.reverse
      (List.takeWhile_append_dropWhile (p := isPySpace) (l := z.reverse))
    rw [List.reverse_append, List.reverse_reverse] at hz
    exact hz.symm
  · rw [List.all_eq_true]
    intro c hc
    exact List.mem_takeWhile_imp (List.mem_reverse.mp hc)

theorem pyRstrip_pre (z : List Char) : pyRstrip z <+: z := by
  obtain ⟨t, ht, _⟩ := pyRstrip_decomp z
  exact ⟨t, ht.symm⟩

theorem pyRstrip_last_not_ws (z : List Char) (c : Char)
    (h : (pyRstrip z).getLast? = some c) : isPySpace c = false := by
  unfold pyRstrip at h
  rw [List.getLast?_reverse] at h
  exact head?_dropWhile_not isPySpace z.reverse c h

theorem pyRstrip_eq_self (z : List Char)
    (h : ∀ c, z.getLast? = some c → isPySpace c = false) : pyRstrip z = z := by
  unfold pyRstrip
  cases hz : z.reverse with
  | nil =>
    rw [List.dropWhile_nil]
    simpa using congrArg List.reverse hz.symm
  | cons a t =>
    rw [List.dropWhile_cons_of_neg, ← hz, List.reverse_reverse]
    have ha : z.getLast? = some a := by
      rw [← List.head?_reverse, hz]
      rfl
    simp [h a ha]

theorem pyRstrip_append (a b : List Char) :
    pyRstrip (a ++ b) = if pyRstrip b = [] then pyRstrip a else a ++ pyRstrip b := by
  unfold pyRstrip
  rw [List.reverse_append, List.dropWhile_append]
  split
  · rename_i hemp
    rw [if_pos]
    rw [List.isEmpty_iff] at hemp
    rw [hemp]
    rfl
  · rename_i hemp
    rw [List.isEmpty_iff] at hemp
    rw [if_neg (by simpa using hemp)]
    rw [List.reverse_append, List.reverse_reverse]

theorem pyLstrip_eq_self (z : List Char)
    (h : ∀ c, z.head? = some c → isPySpace c = false) : pyLstrip z = z := by
  unfold pyLstrip
  cases z with
  | nil => rfl
  | cons a t =>
    rw [List.dropWhile_cons_of_neg]
    simp [h a rfl]

theorem pyStrip_eq_rstrip_of_head (z : List Char) (c : Char) (hc : z.head? = some c)
    (h : isPySpace c = false) : pyStrip z = pyRstrip z := by
  unfold pyStrip
  rw [pyLstrip_eq_self z]
  intro c' hc'
  rw [hc'] at hc
  cases hc
  exact h

theorem pyLstrip_suffix (z : List Char) : z.dropWhile isPySpace <:+ z :=
  List.dropWhile_suffix isPySpace

theorem pyStrip_within (z : List Char) : pyStrip z <:+: z := by
  unfold pyStrip
  obtain ⟨s, hs⟩ := pyLstrip_suffix z
  obtain ⟨t, ht, _⟩ := pyRstrip_decomp (pyLstrip z)
  refine ⟨s, t, ?_⟩
  calc s ++ pyRstrip (pyLstrip z) ++ t
      = s ++ (pyRstrip (pyLstrip z) ++ t) := by rw [List.append_assoc]
    _ = s ++ pyLstrip z := by rw [← ht]
    _ = z := hs

theorem headingAt_headingOf_eq (d1 d2 d3 rest : List Char)
    (h1 : d1 ≠ []) (h2 : d2 ≠ []) (h3 : d3 ≠ [])
    (a1 : d1.all Char.isDigit = true) (a2 : d2.all Char.isDigit = true)
    (a3 : d3.all Char.isDigit = true)
    (hrest : ∀ c, rest.head? = some c → c.isDigit = false) :
    headingAt (headingOf d1 d2 d3 ++ rest) = some (headingOf d1 d2 d3).length := by
  have hshape : headingOf d1 d2 d3 ++ rest =
      '#' :: '#' :: ' ' :: ('v' :: (d1 ++ '.' :: (d2 ++ '.' :: (d3 ++ rest)))) := by
    simp [headingOf, versionOf]
  have hD1 : digitsOne (d1 ++ '.' :: (d2 ++ '.' :: (d3 ++ rest))) =
      some ('.' :: (d2 ++ '.' :: (d3 ++ rest))) :=
    digitsOne_of_digits d1 _ h1 a1 (by intro c hc; cases hc; decide)
  have hD2 : digitsOne (d2 ++ '.' :: (d3 ++ rest)) = some ('.' :: (d3 ++ rest)) :=
    digitsOne_of_digits d2 _ h2 a2 (by intro c hc; cases hc; decide)
  have hD3 : digitsOne (d3 ++ rest) = some rest :=
    digitsOne_of_digits d3 rest h3 a3 hrest
  rw [hshape]
  simp only [headingAt, headingRest, expectChar, if_pos, Option.some_bind, reduceIte,
    hD1, hD2, hD3]
  simp only [Option.map_some']
  congr 1
  have hlen : (headingOf d1 d2 d3 ++ rest).length =
      (headingOf d1 d2 d3).length + rest.length := List.length_append _ _
  rw [hshape] at hlen
  simp only [List.length_cons, List.length_append] at hlen ⊢
  omega

theorem headingAt_take (z : List Char) (l m : Nat) (h : headingAt z = some l)
    (hm : l ≤ m) : headingAt (z.take m) = some l := by
  obtain ⟨d1, d2, d3, rest, hz, h1, h2, h3, a1, a2, a3, hrest, hl⟩ := headingAt_decomp z l h
  have hlh : l = (headingOf d1 d2 d3).length := by rw [headingOf_length]; omega
  subst hz
  rw [List.take_append_eq_append_take]
  have htk : (headingOf d1 d2 d3).take m = headingOf d1 d2 d3 :=
    List.take_of_length_le (by omega)
  rw [htk]
  rw [headingAt_headingOf_eq d1 d2 d3 _ h1 h2 h3 a1 a2 a3, ← hlh]
  intro c hc
  cases hrt : rest.take (m - (headingOf d1 d2 d3).length) with
  | nil => rw [hrt] at hc; cases hc
  | cons a t =>
    rw [hrt] at hc
    cases hc
    refine hrest c ?_
    have := congrArg (fun x => List.head? x) hrt
    cases rest with
    | nil => rw [List.take_nil] at hrt; cases hrt
    | cons b bs =>
      simp only [List.head?] at this ⊢
      cases hmm : m - (headingOf d1 d2 d3).length with
      | zero => rw [hmm] at hrt; cases hrt
      | succ k =>
        rw [hmm] at hrt
        simp only [List.take_succ_cons] at hrt
        have := (List.cons.injEq .. ▸ hrt).1
        rw [this]

theorem headingAt_take_isSome (z : List Char) (m k : Nat)
    (h : headingAt (z.take m) = some k) : (headingAt z).isSome = true := by
  have hz : z = z.take m ++ z.drop m := (List.take_append_drop m z).symm
  rw [hz]
  exact headingAt_isSome_append (z.take m) (z.drop m) k h

theorem extract_cases (x : List Char) :
    extract_changelog_from_text x = [] ∨
    ∃ z, extract_changelog_from_text x =
      pyStrip (replaceFence (joinLines ((splitlines z).map pyLstrip))) := by
  unfold extract_changelog_from_text
  cases findHead x with
  | none => exact Or.inl rfl
  | some p =>
    obtain ⟨s, l⟩ := p
    cases findHead (x.drop (s + l)) with
    | some q => exact Or.inr ⟨_, rfl⟩
    | none => exact Or.inr ⟨_, rfl⟩

/-- C6: `extract` removes every occurrence of the triple-backtick fence
sequence and trims the result, so the returned string never contains
the fence marker; in particular the fence-wrapped scenario input yields the
unwrapped entry. -/
theorem c6_theorem :
    (∀ x : List Char, ¬ fenceMarker <:+: extract_changelog_from_text x) ∧
    extract_changelog_from_text ("```\n## v2.0.0\n### Added\n- feature\n```".data) =
      ("## v2.0.0\n### Added\n- feature".data) := by
  constructor
  · intro x hinf
    rcases extract_cases x with h | ⟨z, h⟩
    · rw [h] at hinf
      cases List.eq_nil_of_infix_nil hinf
    · rw [h] at hinf
      exact replaceFence_noFence _ (hinf.trans (pyStrip_within _))
  · rfl

theorem findHead_take (x : List Char) (s l s2 : Nat) (hf : findHead x = some (s, l))
    (hmin : ∀ i, i < s → headingAt (x.drop i) = none)
    (hM : s + l ≤ s + l + s2) :
    findHead (x.take (s + l + s2)) = some (s, l) := by
  have hAt : headingAt ((x.take (s + l + s2)).drop s) = some l := by
    rw [List.drop_take]
    have hb : headingAt (x.drop s) = some l := findHead_headingAt x s l hf
    exact headingAt_take (x.drop s) l (s + l + s2 - s) hb (by omega)
  cases hft : findHead (x.take (s + l + s2)) with
  | none =>
    rw [findHead_none _ hft s] at hAt
    cases hAt
  | some p =>
    obtain ⟨s', l'⟩ := p
    have h1 : headingAt ((x.take (s + l + s2)).drop s') = some l' :=
      findHead_headingAt _ s' l' hft
    rcases Nat.lt_trichotomy s' s with hlt | heq | hgt
    · exfalso
      rw [List.drop_take] at h1
      have := headingAt_take_isSome (x.drop s') _ _ h1
      rw [hmin s' hlt] at this
      cases this
    · subst heq
      rw [hAt] at h1
      cases h1
      rfl
    · exfalso
      have := findHead_min _ s' l' hft s hgt
      rw [hAt] at this
      cases this

/-- C5: for input text containing two or more headings, `extract` returns
only the span belonging to the first heading: everything from the second
heading onward is irrelevant (extracting from the document truncated just
before the second heading gives the same result), and on the spec's
scenario input the first section alone is returned. -/
theorem c5_theorem :
    (∀ (x : List Char) (s l s2 l2 : Nat), findHead x = some (s, l) →
      findHead (x.drop (s + l)) = some (s2, l2) →
      extract_changelog_from_text x = extract_changelog_from_text (x.take (s + l + s2))) ∧
    extract_changelog_from_text
      ("Sure, here's the changelog:\n\n## v1.2.0\n### Fixed\n- bug\n\n## v1.1.0\n### Fixed\n- old bug".data) =
      ("## v1.2.0\n### Fixed\n- bug".data) := by
  constructor
  · intro x s l s2 l2 hf hf2
    have hft : findHead (x.take (s + l + s2)) = some (s, l) :=
      findHead_take x s l s2 hf (fun i hi => findHead_min x s l hf i hi) (by omega)
    have hca : findHead ((x.take (s + l + s2)).drop (s + l)) = none := by
      cases hc : findHead ((x.take (s + l + s2)).drop (s + l)) with
      | none => rfl
      | some q =>
        exfalso
        obtain ⟨j, lj⟩ := q
        have hj : headingAt (((x.take (s + l + s2)).drop (s + l)).drop j) = some lj :=
          findHead_headingAt _ j lj hc
        rw [List.drop_take, List.drop_take] at hj
        have hjs : (headingAt ((x.drop (s + l)).drop j)).isSome = true := by
          rw [List.drop_drop] at hj ⊢
          exact headingAt_take_isSome _ _ _ hj
        by_cases hjlt : j < s2
        · rw [findHead_min _ s2 l2 hf2 j hjlt] at hjs
          cases hjs
        · push_neg at hjlt
          rw [show s + l + s2 - (s + l) - j = 0 by omega, List.take_zero] at hj
          cases hj
    have hspan : (x.take (s + l + s2)).drop s = (x.drop s).take (l + s2) := by
      rw [List.drop_take]
      congr 1
      omega
    unfold extract_changelog_from_text
    rw [hf, hft]
    simp only [hf2, hca, hspan]
  · rfl

/-- C5 witness: the scenario input has its first heading at index 29
(length 9) and its second heading 18 characters later. -/
theorem c5_witness :
    extract_changelog_from_text
      ("Sure, here's the changelog:\n\n## v1.2.0\n### Fixed\n- bug\n\n## v1.1.0\n### Fixed\n- old bug".data) =
    extract_changelog_from_text
      (("Sure, here's the changelog:\n\n## v1.2.0\n### Fixed\n- bug\n\n## v1.1.0\n### Fixed\n- old bug".data).take (29 + 9 + 18)) :=
  c5_theorem.1 _ 29 9 18 9 (by rfl) (by rfl)

theorem splitlines_first (m z : List Char) (hm : ∀ c ∈ m, isBreakChar c = false)
    (hne : m ≠ []) :
    ∃ tl, splitlines (m ++ z) =
      (m ++ z.takeWhile (fun c => !(isBreakChar c))) :: tl := by
  unfold splitlines
  rw [splitlinesGo_append m hm z [], List.append_nil]
  have hzsplit : z = z.takeWhile (fun c => !(isBreakChar c)) ++
      z.dropWhile (fun c => !(isBreakChar c)) :=
    (List.takeWhile_append_dropWhile _ _).symm
  have hkey : splitlinesGo z m.reverse =
      splitlinesGo (z.dropWhile (fun c => !(isBreakChar c)))
        ((z.takeWhile (fun c => !(isBreakChar c))).reverse ++ m.reverse) := by
    conv_lhs => rw [hzsplit]
    exact splitlinesGo_append _ (fun c hc => by simpa using List.mem_takeWhile_imp hc) _ _
  rw [hkey]
  cases hdw : z.dropWhile (fun c => !(isBreakChar c)) with
  | nil =>
    rw [splitlinesGo_nil]
    rw [if_neg (by simp [hne])]
    exact ⟨[], by simp⟩
  | cons c r =>
    have hcbrk : isBreakChar c = true := by
      have := head?_dropWhile_not (fun c => !(isBreakChar c)) z c (by rw [hdw]; rfl)
      simpa using this
    by_cases hcr : c = '\r' ∧ ∃ r2, r = '\n' :: r2
    · obtain ⟨hc, r2, hr⟩ := hcr
      subst hc hr
      rw [splitlinesGo_crlf]
      exact ⟨splitlinesGo r2 [], by simp⟩
    · rw [splitlinesGo_brk c r _ hcbrk]
      · exact ⟨splitlinesGo r [], by simp⟩
      · intro hc r2 hr
        exact hcr ⟨hc, r2, hr⟩

theorem isPySpace_not_digit (c : Char) (h : isPySpace c = true) : c.isDigit = false := by
  simp only [isPySpace, Bool.or_eq_true, decide_eq_true_eq] at h
  rcases h with (((((((((((h | h) | h) | h) | h) | h) | h) | h) | h) | h) | h) | h) | h <;>
    (subst h; decide)

theorem versionOf_ne_nil (d1 d2 d3 : List Char) : versionOf d1 d2 d3 ≠ [] := by
  simp [versionOf]

theorem headingOf_getLast (d1 d2 d3 : List Char) (h3 : d3 ≠ [])
    (a3 : d3.all Char.isDigit = true) (c : Char)
    (hc : (headingOf d1 d2 d3).getLast? = some c) : isPySpace c = false := by
  have hlast : (headingOf d1 d2 d3).getLast? = d3.getLast? := by
    show (('#' :: '#' :: ' ' :: []) ++ versionOf d1 d2 d3).getLast? = _
    rw [List.getLast?_append_of_ne_nil _ (versionOf_ne_nil d1 d2 d3)]
    show (('v' :: d1) ++ ('.' :: (d2 ++ '.' :: d3))).getLast? = _
    rw [List.getLast?_append_of_ne_nil _ (by simp)]
    show (('.' :: d2) ++ ('.' :: d3)).getLast? = _
    rw [List.getLast?_append_of_ne_nil _ (by simp)]
    show (('.' :: []) ++ d3).getLast? = _
    rw [List.getLast?_append_of_ne_nil _ h3]
  rw [hlast] at hc
  have hcd : c.isDigit = true := by
    rw [List.all_eq_true] at a3
    exact a3 c (List.mem_of_mem_getLast? hc)
  cases hps : isPySpace c
  · rfl
  · rw [isPySpace_not_digit c hps] at hcd
    cases hcd


theorem joinLines_cons_cons (a b : List Char) (r : List (List Char)) :
    joinLines (a :: b :: r) = a ++ '\n' :: joinLines (b :: r) := rfl

theorem extract_pipe (d1 d2 d3 srest : List Char)
    (h1 : d1 ≠ []) (h2 : d2 ≠ []) (h3 : d3 ≠ [])
    (a1 : d1.all Char.isDigit = true) (a2 : d2.all Char.isDigit = true)
    (a3 : d3.all Char.isDigit = true) :
    ∃ tail, pyStrip (replaceFence (joinLines
      ((splitlines (headingOf d1 d2 d3 ++ srest)).map pyLstrip))) =
      headingOf d1 d2 d3 ++ tail := by
  obtain ⟨tl, htl⟩ := splitlines_first (headingOf d1 d2 d3) srest
    (headingOf_no_break d1 d2 d3 a1 a2 a3) (by simp [headingOf])
  rw [htl]
  have hheadchar : ∀ K : List Char, (headingOf d1 d2 d3 ++ K).head? = some '#' := by
    intro K
    simp [headingOf]
  have hlst : pyLstrip (headingOf d1 d2 d3 ++
      srest.takeWhile (fun c => !(isBreakChar c))) =
      headingOf d1 d2 d3 ++ srest.takeWhile (fun c => !(isBreakChar c)) := by
    refine pyLstrip_eq_self _ ?_
    intro c hc
    rw [hheadchar _] at hc
    cases hc
    decide
  have hstep : ∃ K, joinLines (((headingOf d1 d2 d3 ++
      srest.takeWhile (fun c => !(isBreakChar c))) :: tl).map pyLstrip) =
      headingOf d1 d2 d3 ++ K := by
    rw [List.map_cons, hlst]
    cases htl2 : tl.map pyLstrip with
    | nil => exact ⟨_, rfl⟩
    | cons m ms =>
      rw [joinLines_cons_cons]
      rw [List.append_assoc]
      exact ⟨_, rfl⟩
  obtain ⟨K, hK⟩ := hstep
  rw [hK]
  rw [replaceFence_append_no_tick _ _ (headingOf_no_tick d1 d2 d3 a1 a2 a3)]
  rw [pyStrip_eq_rstrip_of_head _ '#' (hheadchar _) (by decide)]
  rw [pyRstrip_append]
  split
  · exact ⟨_, (pyRstrip_eq_self _ (headingOf_getLast d1 d2 d3 h3 a3)).trans
      (List.append_nil _).symm⟩
  · exact ⟨_, rfl⟩

theorem extract_structure (x : List Char) (s l : Nat) (hf : findHead x = some (s, l)) :
    ∃ d1 d2 d3 tail, d1 ≠ [] ∧ d2 ≠ [] ∧ d3 ≠ [] ∧
      d1.all Char.isDigit = true ∧ d2.all Char.isDigit = true ∧
      d3.all Char.isDigit = true ∧
      extract_changelog_from_text x = headingOf d1 d2 d3 ++ tail := by
  have hAt : headingAt (x.drop s) = some l := findHead_headingAt x s l hf
  obtain ⟨d1, d2, d3, rest0, hds, h1, h2, h3, a1, a2, a3, hr0, hl⟩ :=
    headingAt_decomp (x.drop s) l hAt
  have hlh : l = (headingOf d1 d2 d3).length := by rw [headingOf_length]; omega
  unfold extract_changelog_from_text
  rw [hf]
  cases hnext : findHead (x.drop (s + l)) with
  | none =>
    simp only [hnext]
    rw [hds]
    obtain ⟨tail, ht⟩ := extract_pipe d1 d2 d3 rest0 h1 h2 h3 a1 a2 a3
    exact ⟨d1, d2, d3, tail, h1, h2, h3, a1, a2, a3, ht⟩
  | some p =>
    obtain ⟨s2, l2⟩ := p
    simp only [hnext]
    rw [hds, List.take_append_eq_append_take,
      List.take_of_length_le (by omega : (headingOf d1 d2 d3).length ≤ l + s2)]
    obtain ⟨tail, ht⟩ := extract_pipe d1 d2 d3
      (rest0.take (l + s2 - (headingOf d1 d2 d3).length)) h1 h2 h3 a1 a2 a3
    exact ⟨d1, d2, d3, tail, h1, h2, h3, a1, a2, a3, ht⟩

theorem extract_empty_iff (x : List Char) :
    extract_changelog_from_text x = [] ↔ findHead x = none := by
  constructor
  · intro h
    cases hf : findHead x with
    | none => rfl
    | some p =>
      obtain ⟨s, l⟩ := p
      obtain ⟨d1, d2, d3, tail, _, _, _, _, _, _, hx⟩ := extract_structure x s l hf
      rw [hx] at h
      simp [headingOf] at h
  · intro h
    unfold extract_changelog_from_text
    rw [h]

theorem versionOf_getLast (d1 d2 d3 : List Char) (h3 : d3 ≠ [])
    (a3 : d3.all Char.isDigit = true) (c : Char)
    (hc : (versionOf d1 d2 d3).getLast? = some c) : isPySpace c = false := by
  have hlast : (versionOf d1 d2 d3).getLast? = d3.getLast? := by
    show (('v' :: d1) ++ ('.' :: (d2 ++ '.' :: d3))).getLast? = _
    rw [List.getLast?_append_of_ne_nil _ (by simp)]
    show (('.' :: d2) ++ ('.' :: d3)).getLast? = _
    rw [List.getLast?_append_of_ne_nil _ (by simp)]
    show (('.' :: []) ++ d3).getLast? = _
    rw [List.getLast?_append_of_ne_nil _ h3]
  rw [hlast] at hc
  have hcd : c.isDigit = true := by
    rw [List.all_eq_true] at a3
    exact a3 c (List.mem_of_mem_getLast? hc)
  cases hps : isPySpace c
  · rfl
  · rw [isPySpace_not_digit c hps] at hcd
    cases hcd

theorem reSearch_matchFrom (v d : List Char) (s l : Nat)
    (h : reSearch v d = some (s, l)) : matchFrom v (d.drop s) = some l := by
  induction d generalizing s with
  | nil => cases h
  | cons c cs ih =>
    rw [reSearch] at h
    cases hm : matchFrom v (c :: cs) with
    | some l0 =>
      rw [hm] at h
      cases h
      exact hm
    | none =>
      rw [hm, Option.map_eq_some'] at h
      obtain ⟨⟨s', l'⟩, hp, he⟩ := h
      cases he
      simpa using ih s' hp

theorem matchFrom_take (v cs : List Char) (l : Nat) (h : matchFrom v cs = some l) :
    ∃ ws mid, ws.all isPySpace = true ∧ cs.take l = '#' :: '#' :: (ws ++ v ++ mid) := by
  have hs : (matchFrom v cs).isSome = true := by rw [h]; rfl
  obtain ⟨ws, post, hcs, hws⟩ := matchFrom_split_of_some v cs hs
  subst hcs
  rw [matchFrom, expectChar_cons_self, Option.some_bind, expectChar_cons_self,
    Option.some_bind] at h
  cases htl : tryLit v (ws ++ v ++ post) (wsRunLen (ws ++ v ++ post)) with
  | none => rw [htl] at h; cases h
  | some c1 =>
    rw [htl, Option.some_bind] at h
    cases hfe : findEndAux (((ws ++ v ++ post).drop c1).drop
        (wsRunLen ((ws ++ v ++ post).drop c1))) 0 with
    | none => rw [hfe] at h; cases h
    | some e =>
      rw [hfe] at h
      simp only [Option.map_some', Option.some.injEq] at h
      obtain ⟨k, hk, hp, hc1⟩ := tryLit_some v _ _ c1 htl
      set R := ws ++ v ++ post with hR
      set a := wsRunLen (R.drop c1) with ha
      have hl : l = 2 + c1 + a + e := h.symm
      have hklen : (R.take k).length = k := by
        rw [List.length_take]
        have hkle : k ≤ R.length := by
          have htwl := (List.takeWhile_prefix (l := R) (p := isPySpace)).length_le
          unfold wsRunLen at hk
          omega
        omega
      obtain ⟨post2, hpost2⟩ := List.isPrefixOf_iff_prefix.mp hp
      have hD : R.drop (k + v.length) = post2 := by
        have hdd : R.drop (k + v.length) = (R.drop k).drop v.length := by
          have h12 : v.length + k = k + v.length := by omega
          rw [List.drop_drop]
          try rw [h12]
        rw [hdd, ← hpost2]
        simp
      have hsplit : R = R.take k ++ (v ++ R.drop (k + v.length)) := by
        rw [hD, hpost2]
        exact (List.take_append_drop k R).symm
      refine ⟨R.take k, (R.drop (k + v.length)).take (a + e),
        take_all_isPySpace _ k hk, ?_⟩
      have htk : ((('#' :: '#' :: R) : List Char)).take l =
          '#' :: '#' :: (R.take (c1 + a + e)) := by
        rw [hl, show 2 + c1 + a + e = (c1 + a + e) + 1 + 1 by omega]
        rfl
      rw [htk]
      have hgoal : R.take (c1 + a + e) =
          R.take k ++ (v ++ (R.drop (k + v.length)).take (a + e)) := by
        conv_lhs => rw [hsplit]
        rw [List.take_append_eq_append_take]
        rw [List.take_of_length_le (by rw [hklen]; omega : (R.take k).length ≤ c1 + a + e)]
        congr 1
        rw [hklen, show c1 + a + e - k = v.length + (a + e) by omega]
        rw [List.take_append_eq_append_take]
        rw [List.take_of_length_le (by omega : v.length ≤ v.length + (a + e))]
        rw [show v.length + (a + e) - v.length = a + e by omega]
      rw [hgoal]
      simp

/-- C9 amended: `extract` returns the empty string exactly when its input
has no heading, and otherwise a string that begins with a match of the
heading pattern `## v<int>.<int>.<int>`; `get_changelog_entry`, when it
returns successfully for a well-formed version label, returns a string of
the form `##` followed by whitespace, the version label and a remainder
(the whitespace may contain line breaks, so the first *line* of the result
need not match the heading pattern — see the counterexample). -/
theorem c9_amended :
    (∀ x : List Char, extract_changelog_from_text x = [] ↔ findHead x = none) ∧
    (∀ (x : List Char) (s l : Nat), findHead x = some (s, l) →
      (headingAt (extract_changelog_from_text x)).isSome = true) ∧
    (∀ (d1 d2 d3 : List Char) (p : String) (d r : List Char),
      d1 ≠ [] → d2 ≠ [] → d3 ≠ [] →
      d1.all Char.isDigit = true → d2.all Char.isDigit = true →
      d3.all Char.isDigit = true →
      get_changelog_entry (versionOf d1 d2 d3) p (some d) = .ok r →
      ∃ ws mid, ws.all isPySpace = true ∧
        r = '#' :: '#' :: (ws ++ versionOf d1 d2 d3 ++ mid)) := by
  refine ⟨extract_empty_iff, ?_, ?_⟩
  · intro x s l hf
    obtain ⟨d1, d2, d3, tail, h1, h2, h3, a1, a2, a3, hx⟩ := extract_structure x s l hf
    rw [hx]
    exact headingAt_headingOf_isSome d1 d2 d3 tail h1 h2 h3 a1 a2 a3
  · intro d1 d2 d3 p d r h1 h2 h3 a1 a2 a3 hok
    set v := versionOf d1 d2 d3 with hv
    cases hs : reSearch v d with
    | none =>
      rw [get_changelog_entry, hs] at hok
      cases hok
    | some pr =>
      obtain ⟨s, l⟩ := pr
      rw [get_changelog_entry, hs] at hok
      have hmf : matchFrom v (d.drop s) = some l := reSearch_matchFrom v d s l hs
      obtain ⟨ws, mid, hws, htake⟩ := matchFrom_take v (d.drop s) l hmf
      have hr : r = pyStrip ('#' :: '#' :: (ws ++ v ++ mid)) := by
        cases hok
        rw [htake]
      have hassoc : ('#' :: '#' :: (ws ++ v ++ mid) : List Char) =
          ('#' :: '#' :: (ws ++ v)) ++ mid := by
        simp [List.append_assoc]
      rw [hassoc] at hr
      rw [pyStrip_eq_rstrip_of_head (('#' :: '#' :: (ws ++ v)) ++ mid) '#' (by rfl)
        (by decide)] at hr
      rw [pyRstrip_append] at hr
      split at hr
      · refine ⟨ws, [], hws, ?_⟩
        rw [hr, pyRstrip_eq_self]
        · simp
        · intro c hc
          have hlast : (('#' :: '#' :: (ws ++ v)) : List Char).getLast? = v.getLast? := by
            show (('#' :: '#' :: ws) ++ v).getLast? = v.getLast?
            exact List.getLast?_append_of_ne_nil _ (hv ▸ versionOf_ne_nil d1 d2 d3)
          rw [hlast] at hc
          exact versionOf_getLast d1 d2 d3 h3 a3 c hc
      · refine ⟨ws, pyRstrip mid, hws, ?_⟩
        rw [hr]
        simp [List.append_assoc]

/-- C9 witness: concrete instances of both halves of the amended claim. -/
theorem c9_witness :
    (headingAt (extract_changelog_from_text ("hi\n## v1.2.0\n- x".data))).isSome = true ∧
    (∃ ws mid, ws.all isPySpace = true ∧
      ("## v1.2.3\nbody".data) =
        '#' :: '#' :: (ws ++ versionOf ['1'] ['2'] ['3'] ++ mid)) :=
  ⟨c9_amended.2.1 ("hi\n## v1.2.0\n- x".data) 3 9 (by rfl),
   c9_amended.2.2 ['1'] ['2'] ['3'] "CHANGELOG.md" ("## v1.2.3\nbody".data)
     ("## v1.2.3\nbody".data) (by decide) (by decide) (by decide)
     (by decide) (by decide) (by decide) (by rfl)⟩

theorem headingAt_nil : headingAt ([] : List Char) = none := rfl

theorem findHead_none_of (z : List Char) (h : ∀ i, headingAt (z.drop i) = none) :
    findHead z = none := by
  cases hf : findHead z with
  | none => rfl
  | some p =>
    obtain ⟨s, l⟩ := p
    have := findHead_headingAt z s l hf
    rw [h s] at this
    cases this

theorem isBreak_imp_isPySpace (c : Char) (h : isBreakChar c = true) :
    isPySpace c = true := by
  simp only [isBreakChar, Bool.or_eq_true, decide_eq_true_eq] at h
  rcases h with ((((((((h | h) | h) | h) | h) | h) | h) | h) | h) | h <;> (subst h; decide)

theorem pyLstrip_head (m : List Char) (hm : pyLstrip m = m) (c : Char)
    (hc : m.head? = some c) : isPySpace c = false := by
  cases m with
  | nil => cases hc
  | cons a r =>
    cases hc
    cases hws : isPySpace c
    · rfl
    · exfalso
      unfold pyLstrip at hm
      rw [List.dropWhile_cons_of_pos hws] at hm
      have := congrArg List.length hm
      have hle := (List.dropWhile_suffix (l := r) (p := isPySpace)).length_le
      simp at this
      omega

theorem pyLstrip_idem (m : List Char) : pyLstrip (pyLstrip m) = pyLstrip m := by
  refine pyLstrip_eq_self _ ?_
  intro c hc
  exact head?_dropWhile_not isPySpace m c hc

theorem pyRstrip_of_lstripped (m : List Char) (hm : pyLstrip m = m) :
    pyLstrip (pyRstrip m) = pyRstrip m := by
  refine pyLstrip_eq_self _ ?_
  intro c hc
  cases hr : pyRstrip m with
  | nil => rw [hr] at hc; cases hc
  | cons a r =>
    rw [hr] at hc
    cases hc
    have hpre := pyRstrip_pre m
    rw [hr] at hpre
    obtain ⟨t, ht⟩ := hpre
    have hhead : m.head? = some c := by
      rw [← ht]
      rfl
    exact pyLstrip_head m hm c hhead

theorem map_id_of {α : Type} (f : α → α) (l : List α) (h : ∀ a ∈ l, f a = a) :
    l.map f = l := by
  induction l with
  | nil => rfl
  | cons a r ih =>
    rw [List.map_cons, h a (List.mem_cons_self a r),
      ih (fun x hx => h x (List.mem_cons_of_mem a hx))]

theorem pyRstrip_mem (m : List Char) (c : Char) (hc : c ∈ pyRstrip m) : c ∈ m := by
  obtain ⟨t, ht⟩ := pyRstrip_pre m
  rw [← ht]
  exact List.mem_append_left t hc

theorem pyLstrip_mem (m : List Char) (c : Char) (hc : c ∈ pyLstrip m) : c ∈ m :=
  (List.dropWhile_suffix isPySpace).subset hc

theorem nlpre (p a b : List Char) (hp : '\n' ∉ p) (h : p <+: (a ++ '\n' :: b)) :
    p <+: a := by
  induction a generalizing p with
  | nil =>
    cases p with
    | nil => exact List.nil_prefix
    | cons c q =>
      obtain ⟨t, ht⟩ := h
      rw [List.nil_append] at ht
      have hc : c = '\n' := (List.cons.injEq .. ▸ ht).1
      exact absurd (hc ▸ List.mem_cons_self c q) hp
  | cons d a2 ih =>
    cases p with
    | nil => exact List.nil_prefix
    | cons c q =>
      obtain ⟨t, ht⟩ := h
      rw [List.cons_append] at ht
      obtain ⟨hcd, hrest⟩ := List.cons.injEq .. ▸ ht
      subst hcd
      have hq : q <+: a2 :=
        ih q (fun hm => hp (List.mem_cons_of_mem c hm)) ⟨t, hrest⟩
      obtain ⟨t2, ht2⟩ := hq
      exact ⟨t2, by rw [List.cons_append, ht2]⟩

theorem nocross (p a b : List Char) (hp : '\n' ∉ p) (hne : p ≠ [])
    (h : p <:+: (a ++ '\n' :: b)) : p <:+: a ∨ p <:+: b := by
  induction a with
  | nil =>
    rw [List.nil_append] at h
    rcases List.infix_cons_iff.mp h with hpre | hinf
    · cases p with
      | nil => exact absurd rfl hne
      | cons c q =>
        obtain ⟨t, ht⟩ := hpre
        have hc : c = '\n' := (List.cons.injEq .. ▸ ht).1
        exact absurd (hc ▸ List.mem_cons_self c q) hp
    · exact Or.inr hinf
  | cons d a2 ih =>
    rw [List.cons_append] at h
    rcases List.infix_cons_iff.mp h with hpre | hinf
    · left
      exact (nlpre p (d :: a2) b hp (by rwa [List.cons_append])).isInfix
    · rcases ih hinf with hl | hr
      · exact Or.inl (infix_cons_lift d p a2 hl)
      · exact Or.inr hr

theorem join_infix_no_newline (p : List Char) (hp : '\n' ∉ p) (hne : p ≠ []) :
    ∀ (ls : List (List Char)), p <:+: joinLines ls → ∃ m ∈ ls, p <:+: m := by
  intro ls
  induction ls with
  | nil =>
    intro h
    rw [show joinLines [] = [] from rfl] at h
    exact absurd (List.eq_nil_of_infix_nil h) hne
  | cons l r ih =>
    intro h
    cases r with
    | nil => exact ⟨l, List.mem_cons_self l [], h⟩
    | cons l2 r2 =>
      rw [joinLines_cons_cons] at h
      rcases nocross p l (joinLines (l2 :: r2)) hp hne h with hl | hr
      · exact ⟨l, List.mem_cons_self _ _, hl⟩
      · obtain ⟨m, hm, hminf⟩ := ih hr
        exact ⟨m, List.mem_cons_of_mem l hm, hminf⟩

theorem join_mem (ls : List (List Char)) (c : Char) (hc : c ∈ joinLines ls) :
    c = '\n' ∨ ∃ m ∈ ls, c ∈ m := by
  induction ls with
  | nil => cases hc
  | cons l r ih =>
    cases r with
    | nil => exact Or.inr ⟨l, List.mem_cons_self l [], hc⟩
    | cons l2 r2 =>
      rw [joinLines_cons_cons] at hc
      rcases List.mem_append.mp hc with h | h
      · exact Or.inr ⟨l, List.mem_cons_self _ _, h⟩
      · rcases List.mem_cons.mp h with h | h
        · exact Or.inl h
        · rcases ih h with h2 | ⟨m, hm, hcm⟩
          · exact Or.inl h2
          · exact Or.inr ⟨m, List.mem_cons_of_mem l hm, hcm⟩

theorem drop_append_len (a b : List Char) (d : Nat) :
    (a ++ b).drop (a.length + d) = b.drop d := by
  rw [List.drop_append_eq_append_drop]
  rw [List.drop_of_length_le (by omega)]
  rw [List.nil_append]
  congr 1
  omega

theorem splitlines_decomp (z : List Char) (hz : z ≠ []) :
    (z.dropWhile (fun c => !(isBreakChar c)) = [] ∧
      splitlines z = [z.takeWhile (fun c => !(isBreakChar c))]) ∨
    (∃ δ, 1 ≤ δ ∧
      splitlines z = z.takeWhile (fun c => !(isBreakChar c)) ::
        splitlines (z.drop ((z.takeWhile (fun c => !(isBreakChar c))).length + δ)) ∧
      (z.takeWhile (fun c => !(isBreakChar c))).length + δ ≤ z.length) := by
  have hzsplit : z = z.takeWhile (fun c => !(isBreakChar c)) ++
      z.dropWhile (fun c => !(isBreakChar c)) :=
    (List.takeWhile_append_dropWhile _ _).symm
  have htwnb : ∀ c ∈ z.takeWhile (fun c => !(isBreakChar c)), isBreakChar c = false :=
    fun c hc => by simpa using List.mem_takeWhile_imp hc
  have hgo : splitlines z =
      splitlinesGo (z.dropWhile (fun c => !(isBreakChar c)))
        ((z.takeWhile (fun c => !(isBreakChar c))).reverse ++ []) := by
    unfold splitlines
    conv_lhs => rw [hzsplit]
    exact splitlinesGo_append _ htwnb _ _
  rw [List.append_nil] at hgo
  cases hdw : z.dropWhile (fun c => !(isBreakChar c)) with
  | nil =>
    left
    refine ⟨rfl, ?_⟩
    rw [hgo, hdw, splitlinesGo_nil]
    have htwne : z.takeWhile (fun c => !(isBreakChar c)) ≠ [] := by
      intro h
      rw [h, hdw] at hzsplit
      exact hz hzsplit
    rw [if_neg (by simp [htwne])]
    simp
  | cons c r =>
    right
    have hcbrk : isBreakChar c = true := by
      have := head?_dropWhile_not (fun c => !(isBreakChar c)) z c (by rw [hdw]; rfl)
      simpa using this
    have hlen : z.length =
        (z.takeWhile (fun c => !(isBreakChar c))).length + (c :: r).length := by
      conv_lhs => rw [hzsplit]
      rw [hdw, List.length_append]
    by_cases hcr : c = '\r' ∧ ∃ r2, r = '\n' :: r2
    · obtain ⟨hc, r2, hr⟩ := hcr
      subst hc hr
      refine ⟨2, by omega, ?_, by simp at hlen; omega⟩
      rw [hgo, hdw, splitlinesGo_crlf]
      have hdrop : z.drop ((z.takeWhile (fun c => !(isBreakChar c))).length + 2) = r2 := by
        have h1 := congrArg
          (List.drop ((z.takeWhile (fun c => !(isBreakChar c))).length + 2)) hzsplit
        rw [hdw] at h1
        rw [h1, drop_append_len]
        rfl
      rw [hdrop]
      simp [splitlines]
    · refine ⟨1, Nat.le_refl 1, ?_, by simp at hlen; omega⟩
      rw [hgo, hdw, splitlinesGo_brk c r _ hcbrk (fun hc r2 hr => hcr ⟨hc, r2, hr⟩)]
      have hdrop : z.drop ((z.takeWhile (fun c => !(isBreakChar c))).length + 1) = r := by
        have h1 := congrArg
          (List.drop ((z.takeWhile (fun c => !(isBreakChar c))).length + 1)) hzsplit
        rw [hdw] at h1
        rw [h1, drop_append_len]
        rfl
      rw [hdrop]
      simp [splitlines]

theorem splitlines_ne_nil (z : List Char) (hz : z ≠ []) : splitlines z ≠ [] := by
  rcases splitlines_decomp z hz with ⟨_, h⟩ | ⟨δ, _, h, _⟩ <;> rw [h] <;> simp

theorem splitlines_pos : ∀ (n : Nat) (z : List Char), z.length ≤ n →
    ∀ m ∈ splitlines z, ∃ i, m <+: z.drop i := by
  intro n
  induction n with
  | zero =>
    intro z hzl m hm
    have hz : z = [] := List.length_eq_zero.mp (Nat.le_zero.mp hzl)
    subst hz
    cases hm
  | succ n ih =>
    intro z hzl m hm
    by_cases hz : z = []
    · subst hz; cases hm
    rcases splitlines_decomp z hz with ⟨_, h⟩ | ⟨δ, hδ, h, hle⟩
    · rw [h] at hm
      rcases List.mem_singleton.mp hm with rfl
      exact ⟨0, by simpa using List.takeWhile_prefix _⟩
    · rw [h] at hm
      rcases List.mem_cons.mp hm with rfl | hm2
      · exact ⟨0, by simpa using List.takeWhile_prefix _⟩
      · have hlt : (z.drop ((z.takeWhile (fun c => !(isBreakChar c))).length + δ)).length ≤ n := by
          rw [List.length_drop]
          omega
        obtain ⟨i, hi⟩ := ih _ hlt m hm2
        rw [List.drop_drop] at hi
        exact ⟨_, hi⟩

theorem splitlines_tail_pos (z m0 : List Char) (tl : List (List Char))
    (h : splitlines z = m0 :: tl) :
    ∀ m ∈ tl, ∃ i, 1 ≤ i ∧ m <+: z.drop i := by
  intro m hm
  by_cases hz : z = []
  · subst hz; rw [show splitlines [] = [] from rfl] at h; cases h
  rcases splitlines_decomp z hz with ⟨_, h2⟩ | ⟨δ, hδ, h2, hle⟩
  · rw [h2] at h
    obtain ⟨-, htl⟩ := List.cons.injEq .. ▸ h
    subst htl
    cases hm
  · rw [h2] at h
    obtain ⟨-, htl⟩ := List.cons.injEq .. ▸ h
    subst htl
    obtain ⟨i, hi⟩ := splitlines_pos _ _ (Nat.le_refl _) m hm
    rw [List.drop_drop] at hi
    exact ⟨_, by omega, hi⟩

theorem lines_no_break : ∀ (n : Nat) (z : List Char), z.length ≤ n →
    ∀ m ∈ splitlines z, ∀ c ∈ m, isBreakChar c = false := by
  intro n
  induction n with
  | zero =>
    intro z hzl m hm
    have hz : z = [] := List.length_eq_zero.mp (Nat.le_zero.mp hzl)
    subst hz
    cases hm
  | succ n ih =>
    intro z hzl m hm c hc
    by_cases hz : z = []
    · subst hz; cases hm
    have htwnb : ∀ c ∈ z.takeWhile (fun c => !(isBreakChar c)), isBreakChar c = false :=
      fun c hc => by simpa using List.mem_takeWhile_imp hc
    rcases splitlines_decomp z hz with ⟨_, h⟩ | ⟨δ, hδ, h, hle⟩
    · rw [h] at hm
      rcases List.mem_singleton.mp hm with rfl
      exact htwnb c hc
    · rw [h] at hm
      rcases List.mem_cons.mp hm with rfl | hm2
      · exact htwnb c hc
      · have hlt : (z.drop ((z.takeWhile (fun c => !(isBreakChar c))).length + δ)).length ≤ n := by
          rw [List.length_drop]
          omega
        exact ih _ hlt m hm2 c hc

theorem joinLines_splitlines : ∀ (n : Nat) (z : List Char), z.length ≤ n →
    (∀ c ∈ z, isBreakChar c = true → c = '\n') →
    (∀ c, z.getLast? = some c → isBreakChar c = false) →
    joinLines (splitlines z) = z := by
  intro n
  induction n with
  | zero =>
    intro z hzl _ _
    have hz : z = [] := List.length_eq_zero.mp (Nat.le_zero.mp hzl)
    subst hz
    rfl
  | succ n ih =>
    intro z hzl hb hl
    by_cases hz : z = []
    · subst hz; rfl
    have hzsplit : z = z.takeWhile (fun c => !(isBreakChar c)) ++
        z.dropWhile (fun c => !(isBreakChar c)) :=
      (List.takeWhile_append_dropWhile _ _).symm
    have htwnb : ∀ c ∈ z.takeWhile (fun c => !(isBreakChar c)), isBreakChar c = false :=
      fun c hc => by simpa using List.mem_takeWhile_imp hc
    cases hdw : z.dropWhile (fun c => !(isBreakChar c)) with
    | nil =>
      rw [hdw, List.append_nil] at hzsplit
      rw [← hzsplit] at htwnb
      rw [splitlines_no_break z htwnb, if_neg (by simp [hz])]
      rfl
    | cons c r =>
      have hcbrk : isBreakChar c = true := by
        have := head?_dropWhile_not (fun c => !(isBreakChar c)) z c (by rw [hdw]; rfl)
        simpa using this
      have hcz : c ∈ z := (List.dropWhile_suffix _).subset (hdw ▸ List.mem_cons_self c r)
      have hcn : c = '\n' := hb c hcz hcbrk
      subst hcn
      rw [hdw] at hzsplit
      have hr : r ≠ [] := by
        intro hre
        subst hre
        have hlast : z.getLast? = some '\n' := by
          rw [hzsplit]
          rw [List.getLast?_append_of_ne_nil _ (by simp : ('\n' :: ([] : List Char)) ≠ [])]
          rfl
        have := hl '\n' hlast
        simp [isBreakChar] at this
      have hsp : splitlines z = z.takeWhile (fun c => !(isBreakChar c)) :: splitlines r := by
        conv_lhs => rw [hzsplit]
        exact splitlines_append_newline _ r htwnb
      rw [hsp]
      have hrlen : r.length ≤ n := by
        have := congrArg List.length hzsplit
        simp at this
        omega
      have hrb : ∀ c ∈ r, isBreakChar c = true → c = '\n' := by
        intro c hc
        exact hb c (hzsplit ▸ List.mem_append_right _ (List.mem_cons_of_mem _ hc))
      have hrl : ∀ c, r.getLast? = some c → isBreakChar c = false := by
        intro c hc
        refine hl c ?_
        rw [hzsplit]
        rw [List.getLast?_append_of_ne_nil _ (by simp : ('\n' :: r) ≠ [])]
        cases r with
        | nil => exact absurd rfl hr
        | cons x r2 => rw [List.getLast?_cons_cons]; exact hc
      have hjr := ih r hrlen hrb hrl
      cases hsr : splitlines r with
      | nil => exact absurd hsr (splitlines_ne_nil r hr)
      | cons m1 tl1 =>
        rw [hsr] at hjr
        rw [joinLines_cons_cons, hjr]
        exact hzsplit.symm

theorem span_noHeadTail_none (x : List Char) (s l : Nat)
    (hf : findHead x = some (s, l)) (hn : findHead (x.drop (s + l)) = none) :
    ∀ i, 1 ≤ i → headingAt ((x.drop s).drop i) = none := by
  intro i hge
  have hAt : headingAt (x.drop s) = some l := findHead_headingAt x s l hf
  rcases Nat.lt_or_ge i l with hlt | hle
  · exact headingAt_none_inside _ l hAt i hge hlt
  · have h1 := findHead_none _ hn (i - l)
    have h2 : (x.drop (s + l)).drop (i - l) = (x.drop s).drop i := by
      rw [List.drop_drop, List.drop_drop]
      congr 1
      omega
    rwa [h2] at h1

theorem span_noHeadTail_take (x : List Char) (s l s2 l2 : Nat)
    (hf : findHead x = some (s, l)) (hn : findHead (x.drop (s + l)) = some (s2, l2)) :
    ∀ i, 1 ≤ i → headingAt (((x.drop s).take (l + s2)).drop i) = none := by
  intro i hge
  have hAt : headingAt (x.drop s) = some l := findHead_headingAt x s l hf
  rw [List.drop_take]
  rcases Nat.lt_or_ge i (l + s2) with hin | hout
  · cases hh : headingAt (((x.drop s).drop i).take (l + s2 - i)) with
    | none => rfl
    | some k =>
      exfalso
      have hsome := headingAt_take_isSome _ _ _ hh
      rcases Nat.lt_or_ge i l with hlt | hle
      · rw [headingAt_none_inside _ l hAt i hge hlt] at hsome
        cases hsome
      · have h1 := findHead_min _ s2 l2 hn (i - l) (by omega)
        have h2 : (x.drop (s + l)).drop (i - l) = (x.drop s).drop i := by
          rw [List.drop_drop, List.drop_drop]
          congr 1
          omega
        rw [h2] at h1
        rw [h1] at hsome
        cases hsome
  · rw [show l + s2 - i = 0 by omega, List.take_zero]
    rfl

theorem noHead_suffix (w z : List Char) (hw : w <:+ z)
    (h : ∀ i, headingAt (z.drop i) = none) :
    ∀ i, headingAt (w.drop i) = none := by
  obtain ⟨u, hu⟩ := hw
  intro i
  have h1 := h (u.length + i)
  rwa [← hu, drop_append_len] at h1

theorem noHead_prefix (p z : List Char) (hp : p <+: z)
    (h : ∀ i, headingAt (z.drop i) = none) :
    ∀ i, headingAt (p.drop i) = none := by
  obtain ⟨t, ht⟩ := hp
  intro i
  cases hh : headingAt (p.drop i) with
  | none => rfl
  | some k =>
    exfalso
    by_cases hl : i ≤ p.length
    · have hsome := headingAt_isSome_append (p.drop i) t k hh
      rw [← List.drop_append_of_le_length hl, ht, h i] at hsome
      cases hsome
    · rw [List.drop_of_length_le (by omega)] at hh
      cases hh

theorem noHeadTail_prefix (p z : List Char) (hp : p <+: z)
    (h : ∀ i, 1 ≤ i → headingAt (z.drop i) = none) :
    ∀ i, 1 ≤ i → headingAt (p.drop i) = none := by
  obtain ⟨t, ht⟩ := hp
  intro i hge
  cases hh : headingAt (p.drop i) with
  | none => rfl
  | some k =>
    exfalso
    by_cases hl : i ≤ p.length
    · have hsome := headingAt_isSome_append (p.drop i) t k hh
      rw [← List.drop_append_of_le_length hl, ht, h i hge] at hsome
      cases hsome
    · rw [List.drop_of_length_le (by omega)] at hh
      cases hh

theorem noHead_of_pos (z m : List Char) (j : Nat) (hj : 1 ≤ j) (hm : m <+: z.drop j)
    (hz : ∀ i, 1 ≤ i → headingAt (z.drop i) = none) :
    ∀ i, headingAt (m.drop i) = none := by
  refine noHead_prefix m (z.drop j) hm ?_
  intro i
  rw [List.drop_drop]
  first
  | exact hz (i + j) (by omega)
  | exact hz (j + i) (by omega)

theorem noHead_append_newline (a b : List Char)
    (ha : ∀ i, headingAt (a.drop i) = none)
    (hb : ∀ i, headingAt (b.drop i) = none) :
    ∀ i, headingAt ((a ++ '\n' :: b).drop i) = none := by
  intro i
  by_cases hl : i ≤ a.length
  · rw [List.drop_append_of_le_length hl]
    cases hh : headingAt (a.drop i ++ '\n' :: b) with
    | none => rfl
    | some k =>
      exfalso
      have := headingAt_of_append_newline _ _ k hh
      rw [ha i] at this
      cases this
  · rw [List.drop_append_eq_append_drop, List.drop_of_length_le (by omega),
      List.nil_append]
    obtain ⟨k, hk⟩ : ∃ k, i - a.length = k + 1 := ⟨i - a.length - 1, by omega⟩
    rw [hk, List.drop_succ_cons]
    exact hb k

theorem noHeadTail_append_newline (a b : List Char)
    (ha : ∀ i, 1 ≤ i → headingAt (a.drop i) = none)
    (hb : ∀ i, headingAt (b.drop i) = none) :
    ∀ i, 1 ≤ i → headingAt ((a ++ '\n' :: b).drop i) = none := by
  intro i hge
  by_cases hl : i ≤ a.length
  · rw [List.drop_append_of_le_length hl]
    cases hh : headingAt (a.drop i ++ '\n' :: b) with
    | none => rfl
    | some k =>
      exfalso
      have := headingAt_of_append_newline _ _ k hh
      rw [ha i hge] at this
      cases this
  · rw [List.drop_append_eq_append_drop, List.drop_of_length_le (by omega),
      List.nil_append]
    obtain ⟨k, hk⟩ : ∃ k, i - a.length = k + 1 := ⟨i - a.length - 1, by omega⟩
    rw [hk, List.drop_succ_cons]
    exact hb k

theorem joinLines_noHead (ls : List (List Char))
    (h : ∀ m ∈ ls, ∀ i, headingAt (m.drop i) = none) :
    ∀ i, headingAt ((joinLines ls).drop i) = none := by
  induction ls with
  | nil =>
    intro i
    rw [show joinLines [] = [] from rfl, List.drop_nil]
    rfl
  | cons l r ih =>
    cases r with
    | nil => exact h l (List.mem_cons_self l [])
    | cons l2 r2 =>
      rw [joinLines_cons_cons]
      exact noHead_append_newline l (joinLines (l2 :: r2))
        (h l (List.mem_cons_self _ _))
        (ih (fun m hm => h m (List.mem_cons_of_mem l hm)))

theorem joinLines_noHeadTail (l0 : List Char) (rest : List (List Char))
    (h0 : ∀ i, 1 ≤ i → headingAt (l0.drop i) = none)
    (h : ∀ m ∈ rest, ∀ i, headingAt (m.drop i) = none) :
    ∀ i, 1 ≤ i → headingAt ((joinLines (l0 :: rest)).drop i) = none := by
  cases rest with
  | nil =>
    intro i hge
    exact h0 i hge
  | cons l2 r2 =>
    rw [joinLines_cons_cons]
    exact noHeadTail_append_newline l0 (joinLines (l2 :: r2)) h0
      (joinLines_noHead (l2 :: r2) h)

theorem rstripLines_nil : rstripLines [] = [] := rfl

theorem rstripLines_cons (l : List Char) (ls : List (List Char)) :
    rstripLines (l :: ls) =
      if (rstripLines ls).isEmpty then
        (if (pyRstrip l).isEmpty then [] else [pyRstrip l])
      else l :: rstripLines ls := rfl

theorem pyRstrip_newline (w : List Char) :
    pyRstrip ('\n' :: w) = if pyRstrip w = [] then [] else '\n' :: pyRstrip w := by
  have h := pyRstrip_append ['\n'] w
  rw [show (['\n'] ++ w) = '\n' :: w from rfl] at h
  rw [h]
  split
  · rfl
  · rfl

theorem pyRstrip_newline_nil_iff (w : List Char) :
    pyRstrip ('\n' :: w) = [] ↔ pyRstrip w = [] := by
  rw [pyRstrip_newline]
  split
  · rename_i h
    simp [h]
  · rename_i h
    simp [h]

theorem pyRstrip_append_nil_iff (a b : List Char) :
    pyRstrip (a ++ b) = [] ↔ pyRstrip a = [] ∧ pyRstrip b = [] := by
  rw [pyRstrip_append]
  split
  · rename_i h
    simp [h]
  · rename_i h
    constructor
    · intro hab
      exact absurd hab (by simp [h])
    · intro ⟨_, hb⟩
      exact absurd hb h

theorem rstripLines_nil_iff (ls : List (List Char)) :
    rstripLines ls = [] ↔ pyRstrip (joinLines ls) = [] := by
  induction ls with
  | nil => simp [rstripLines_nil]; rfl
  | cons l r ih =>
    cases r with
    | nil =>
      rw [rstripLines_cons, rstripLines_nil]
      rw [show joinLines [l] = l from rfl]
      simp only [List.isEmpty_nil, if_true]
      split
      · rename_i h
        rw [List.isEmpty_iff] at h
        simp [h]
      · rename_i h
        rw [List.isEmpty_iff] at h
        constructor
        · intro hc
          cases hc
        · intro hc
          exact absurd hc h
    | cons l2 r2 =>
      rw [rstripLines_cons, joinLines_cons_cons, pyRstrip_append_nil_iff,
        pyRstrip_newline_nil_iff, ← ih]
      split
      · rename_i h
        rw [List.isEmpty_iff] at h
        split
        · rename_i h2
          rw [List.isEmpty_iff] at h2
          simp [h, h2]
        · rename_i h2
          rw [List.isEmpty_iff] at h2
          constructor
          · intro hc
            cases hc
          · intro ⟨ha, _⟩
            exact absurd ha h2
      · rename_i h
        rw [List.isEmpty_iff] at h
        constructor
        · intro hc
          cases hc
        · intro ⟨_, hb⟩
          exact absurd hb h

theorem splitlines_rstrip_join (ls : List (List Char))
    (h : ∀ m ∈ ls, ∀ c ∈ m, isBreakChar c = false) :
    splitlines (pyRstrip (joinLines ls)) = rstripLines ls := by
  induction ls with
  | nil => rfl
  | cons l r ih =>
    have hlnb : ∀ c ∈ l, isBreakChar c = false := h l (List.mem_cons_self l r)
    have hrstripnb : ∀ c ∈ pyRstrip l, isBreakChar c = false :=
      fun c hc => hlnb c (pyRstrip_mem l c hc)
    cases r with
    | nil =>
      rw [show joinLines [l] = l from rfl]
      rw [splitlines_no_break _ hrstripnb]
      rw [rstripLines_cons, rstripLines_nil]
      rfl
    | cons l2 r2 =>
      have hr : ∀ m ∈ l2 :: r2, ∀ c ∈ m, isBreakChar c = false :=
        fun m hm => h m (List.mem_cons_of_mem l hm)
      rw [joinLines_cons_cons, pyRstrip_append]
      split
      · rename_i hnl
        rw [pyRstrip_newline_nil_iff] at hnl
        have hre : rstripLines (l2 :: r2) = [] := (rstripLines_nil_iff _).mpr hnl
        rw [splitlines_no_break _ hrstripnb, rstripLines_cons, hre]
        rfl
      · rename_i hnl
        have hBne : pyRstrip (joinLines (l2 :: r2)) ≠ [] := by
          intro hB
          rw [pyRstrip_newline, if_pos hB] at hnl
          exact hnl rfl
        have hre : rstripLines (l2 :: r2) ≠ [] :=
          fun hc => hBne ((rstripLines_nil_iff _).mp hc)
        rw [pyRstrip_newline, if_neg hBne]
        rw [splitlines_append_newline _ _ hlnb]
        rw [ih hr]
        conv_rhs => rw [rstripLines_cons]
        cases hc : rstripLines (l2 :: r2) with
        | nil => exact absurd hc hre
        | cons m ms => rfl

theorem rstripLines_mem (ls : List (List Char)) (m : List Char)
    (hm : m ∈ rstripLines ls) : m ∈ ls ∨ ∃ l ∈ ls, m = pyRstrip l := by
  induction ls with
  | nil => cases hm
  | cons l r ih =>
    rw [rstripLines_cons] at hm
    by_cases he : (rstripLines r).isEmpty
    · rw [if_pos he] at hm
      by_cases hp : (pyRstrip l).isEmpty
      · rw [if_pos hp] at hm
        cases hm
      · rw [if_neg hp] at hm
        rcases List.mem_singleton.mp hm with rfl
        exact Or.inr ⟨l, List.mem_cons_self l r, rfl⟩
    · rw [if_neg he] at hm
      rcases List.mem_cons.mp hm with rfl | hm2
      · exact Or.inl (List.mem_cons_self m r)
      · rcases ih hm2 with hl | ⟨l2, hl2, hml2⟩
        · exact Or.inl (List.mem_cons_of_mem l hl)
        · exact Or.inr ⟨l2, List.mem_cons_of_mem l hl2, hml2⟩

theorem inf_of_pre (p z : List Char) (h : p <+: z) : p <:+: z := by
  obtain ⟨t, ht⟩ := h
  exact ⟨[], t, by simpa using ht⟩

theorem inf_of_suf (w z : List Char) (h : w <:+ z) : w <:+: z := by
  obtain ⟨u, hu⟩ := h
  exact ⟨u, [], by simpa using hu⟩

theorem extract_span (x : List Char) (s l : Nat) (hf : findHead x = some (s, l)) :
    ∃ span, extract_changelog_from_text x =
        pyStrip (replaceFence (joinLines ((splitlines span).map pyLstrip))) ∧
      (∀ i, 1 ≤ i → headingAt (span.drop i) = none) ∧
      span <:+: x ∧
      span.head? = some '#' := by
  have hAt : headingAt (x.drop s) = some l := findHead_headingAt x s l hf
  obtain ⟨d1, d2, d3, rest0, hds, h1, h2, h3, a1, a2, a3, hr0, hl⟩ :=
    headingAt_decomp (x.drop s) l hAt
  have hhead : (x.drop s).head? = some '#' := by
    rw [hds]
    rfl
  unfold extract_changelog_from_text
  rw [hf]
  cases hnext : findHead (x.drop (s + l)) with
  | none =>
    simp only [hnext]
    refine ⟨x.drop s, rfl, span_noHeadTail_none x s l hf hnext, ?_, hhead⟩
    exact ⟨x.take s, [], by simp⟩
  | some p =>
    obtain ⟨s2, l2⟩ := p
    simp only [hnext]
    refine ⟨(x.drop s).take (l + s2), rfl,
      span_noHeadTail_take x s l s2 l2 hf hnext, ?_, ?_⟩
    · refine ⟨x.take s, (x.drop s).drop (l + s2), ?_⟩
      rw [List.append_assoc, List.take_append_drop, List.take_append_drop]
    · cases hxs : x.drop s with
      | nil =>
        rw [hxs] at hhead
        cases hhead
      | cons c t =>
        rw [hxs] at hhead
        obtain ⟨k, hk⟩ : ∃ k, l + s2 = k + 1 := ⟨l + s2 - 1, by omega⟩
        rw [hk, List.take_succ_cons]
        exact hhead

theorem extract_clean (x : List Char) (s l : Nat) (hf : findHead x = some (s, l))
    (hfen : ¬ fenceMarker <:+: x) :
    ∃ ls, extract_changelog_from_text x = pyRstrip (joinLines ls) ∧
      (∀ m ∈ ls, pyLstrip m = m) ∧
      (∀ m ∈ ls, ∀ c ∈ m, isBreakChar c = false) ∧
      (∀ i, 1 ≤ i → headingAt ((joinLines ls).drop i) = none) ∧
      ¬ fenceMarker <:+: joinLines ls ∧
      (joinLines ls).head? = some '#' := by
  obtain ⟨span, hx, hspannht, hspaninf, hheadspan⟩ := extract_span x s l hf
  have hspne : span ≠ [] := by
    intro he
    rw [he] at hheadspan
    cases hheadspan
  obtain ⟨c0, spt, hspc⟩ : ∃ c0 spt, span = c0 :: spt := by
    cases span with
    | nil => exact absurd rfl hspne
    | cons a b => exact ⟨a, b, rfl⟩
  have hc0 : c0 = '#' := by
    rw [hspc] at hheadspan
    cases hheadspan
    rfl
  subst hc0
  have hm0c : span.takeWhile (fun c => !(isBreakChar c)) =
      '#' :: spt.takeWhile (fun c => !(isBreakChar c)) := by
    rw [hspc, List.takeWhile_cons_of_pos (by decide)]
  obtain ⟨tl, hsp⟩ : ∃ tl, splitlines span =
      span.takeWhile (fun c => !(isBreakChar c)) :: tl := by
    rcases splitlines_decomp span hspne with ⟨_, h⟩ | ⟨δ, _, h, _⟩
    · exact ⟨[], h⟩
    · exact ⟨_, h⟩
  have hm0l : pyLstrip (span.takeWhile (fun c => !(isBreakChar c))) =
      span.takeWhile (fun c => !(isBreakChar c)) := by
    refine pyLstrip_eq_self _ ?_
    intro c hc
    rw [hm0c] at hc
    cases hc
    decide
  refine ⟨span.takeWhile (fun c => !(isBreakChar c)) :: tl.map pyLstrip,
    ?_, ?_, ?_, ?_, ?_, ?_⟩
  · -- extract x = pyRstrip (joinLines ls)
    rw [hx, hsp, List.map_cons, hm0l]
    have hJh : (joinLines (span.takeWhile (fun c => !(isBreakChar c)) ::
        tl.map pyLstrip)).head? = some '#' := by
      cases htl2 : tl.map pyLstrip with
      | nil => rw [show joinLines [span.takeWhile (fun c => !(isBreakChar c))] =
          span.takeWhile (fun c => !(isBreakChar c)) from rfl, hm0c]; rfl
      | cons a r => rw [joinLines_cons_cons, hm0c]; rfl
    have hJnf : ¬ fenceMarker <:+: joinLines
        (span.takeWhile (fun c => !(isBreakChar c)) :: tl.map pyLstrip) := by
      intro hinf
      obtain ⟨m', hm', hfm'⟩ :=
        join_infix_no_newline fenceMarker (by decide) (by decide) _ hinf
      rcases List.mem_cons.mp hm' with rfl | hm2
      · exact hfen ((hfm'.trans (inf_of_pre _ span
          (List.takeWhile_prefix _))).trans hspaninf)
      · obtain ⟨m, hm, rfl⟩ := List.mem_map.mp hm2
        have hfm : fenceMarker <:+: m := hfm'.trans (inf_of_suf _ m (pyLstrip_suffix m))
        obtain ⟨i, hi1, hpre⟩ := splitlines_tail_pos span _ tl hsp m hm
        exact hfen (((hfm.trans (inf_of_pre _ _ hpre)).trans
          (inf_of_suf _ span (List.drop_suffix i span))).trans hspaninf)
    rw [replaceFence_of_noFence (joinLines (span.takeWhile (fun c => !(isBreakChar c)) ::
      tl.map pyLstrip)).length _ (Nat.le_refl _) hJnf]
    unfold pyStrip
    rw [pyLstrip_eq_self _ (fun c hc => by rw [hJh] at hc; cases hc; decide)]
  · -- lstripped
    intro m hm
    rcases List.mem_cons.mp hm with rfl | hm2
    · exact hm0l
    · obtain ⟨m', _, rfl⟩ := List.mem_map.mp hm2
      exact pyLstrip_idem m'
  · -- break-free
    intro m hm
    rcases List.mem_cons.mp hm with rfl | hm2
    · intro c hc
      simpa using List.mem_takeWhile_imp hc
    · obtain ⟨m', hm', rfl⟩ := List.mem_map.mp hm2
      intro c hc
      exact lines_no_break span.length span (Nat.le_refl _) m'
        (by rw [hsp]; exact List.mem_cons_of_mem _ hm') c (pyLstrip_mem m' c hc)
  · -- noHeadTail of join
    refine joinLines_noHeadTail _ (tl.map pyLstrip) ?_ ?_
    · exact noHeadTail_prefix _ span (List.takeWhile_prefix _) hspannht
    · intro m' hm'
      obtain ⟨m, hm, rfl⟩ := List.mem_map.mp hm'
      obtain ⟨i, hi1, hpre⟩ := splitlines_tail_pos span _ tl hsp m hm
      exact noHead_suffix _ m (pyLstrip_suffix m)
        (noHead_of_pos span m i hi1 hpre hspannht)
  · -- no fence
    intro hinf
    obtain ⟨m', hm', hfm'⟩ :=
      join_infix_no_newline fenceMarker (by decide) (by decide) _ hinf
    rcases List.mem_cons.mp hm' with rfl | hm2
    · exact hfen ((hfm'.trans (inf_of_pre _ span
        (List.takeWhile_prefix _))).trans hspaninf)
    · obtain ⟨m, hm, rfl⟩ := List.mem_map.mp hm2
      have hfm : fenceMarker <:+: m := hfm'.trans (inf_of_suf _ m (pyLstrip_suffix m))
      obtain ⟨i, hi1, hpre⟩ := splitlines_tail_pos span _ tl hsp m hm
      exact hfen (((hfm.trans (inf_of_pre _ _ hpre)).trans
        (inf_of_suf _ span (List.drop_suffix i span))).trans hspaninf)
  · -- head of join
    cases htl2 : tl.map pyLstrip with
    | nil => rw [show joinLines [span.takeWhile (fun c => !(isBreakChar c))] =
        span.takeWhile (fun c => !(isBreakChar c)) from rfl, hm0c]; rfl
    | cons a r => rw [joinLines_cons_cons, hm0c]; rfl

theorem extract_fixed (x : List Char) (s l : Nat) (hf : findHead x = some (s, l))
    (hfen : ¬ fenceMarker <:+: x) :
    extract_changelog_from_text (extract_changelog_from_text x) =
      extract_changelog_from_text x := by
  obtain ⟨ls, hy, hlst, hnb, hnht, hnf, hJh⟩ := extract_clean x s l hf hfen
  obtain ⟨d1, d2, d3, tail, h1, h2, h3, a1, a2, a3, hystruct⟩ :=
    extract_structure x s l hf
  set Y := extract_changelog_from_text x with hY
  -- heading at the front of Y
  have hysome : (headingAt Y).isSome = true := by
    rw [hystruct]
    exact headingAt_headingOf_isSome d1 d2 d3 tail h1 h2 h3 a1 a2 a3
  obtain ⟨ly, hly⟩ := Option.isSome_iff_exists.mp hysome
  have hly1 : 1 ≤ ly := by
    obtain ⟨_, _, _, _, _, _, _, _, _, _, _, _, hleq⟩ := headingAt_decomp Y ly hly
    omega
  have hfy : findHead Y = some (0, ly) := findHead_cons_of_headingAt Y ly hly
  -- no heading strictly inside Y
  have hnhtY : ∀ i, 1 ≤ i → headingAt (Y.drop i) = none := by
    refine noHeadTail_prefix Y (joinLines ls) ?_ hnht
    rw [hy]
    exact pyRstrip_pre (joinLines ls)
  have hnexty : findHead (Y.drop (0 + ly)) = none := by
    refine findHead_none_of _ ?_
    intro j
    rw [List.drop_drop]
    first
    | exact hnhtY (j + (0 + ly)) (by omega)
    | exact hnhtY ((0 + ly) + j) (by omega)
  -- the lines of Y are already clean
  have hsly : splitlines Y = rstripLines ls := by
    rw [hy]
    exact splitlines_rstrip_join ls hnb
  have hmapid : (splitlines Y).map pyLstrip = splitlines Y := by
    rw [hsly]
    refine map_id_of pyLstrip _ ?_
    intro m hm
    rcases rstripLines_mem ls m hm with hml | ⟨l', hl', rfl⟩
    · exact hlst m hml
    · exact pyRstrip_of_lstripped l' (hlst l' hl')
  have hjoin : joinLines (splitlines Y) = Y := by
    refine joinLines_splitlines Y.length Y (Nat.le_refl _) ?_ ?_
    · intro c hcy hcb
      have hcJ : c ∈ joinLines ls := by
        rw [hy] at hcy
        exact pyRstrip_mem _ c hcy
      rcases join_mem ls c hcJ with hcn | ⟨m, hm, hcm⟩
      · exact hcn
      · rw [hnb m hm c hcm] at hcb
        cases hcb
    · intro c hc
      cases hb2 : isBreakChar c with
      | false => rfl
      | true =>
        exfalso
        have hws := isBreak_imp_isPySpace c hb2
        rw [hy] at hc
        rw [pyRstrip_last_not_ws (joinLines ls) c hc] at hws
        cases hws
  have hnfY : ¬ fenceMarker <:+: Y := by
    intro hinf
    refine hnf (hinf.trans ?_)
    rw [hy]
    exact inf_of_pre _ _ (pyRstrip_pre (joinLines ls))
  have hheadY : Y.head? = some '#' := by
    rw [hystruct]
    rfl
  -- compute the second extraction
  show extract_changelog_from_text Y = Y
  unfold extract_changelog_from_text
  rw [hfy]
  simp only [hnexty]
  rw [List.drop_zero, hmapid, hjoin]
  rw [replaceFence_of_noFence Y.length Y (Nat.le_refl _) hnfY]
  unfold pyStrip
  rw [pyLstrip_eq_self Y (fun c hc => by rw [hheadY] at hc; cases hc; decide)]
  refine pyRstrip_eq_self Y ?_
  intro c hc
  rw [hy] at hc
  exact pyRstrip_last_not_ws (joinLines ls) c hc

/-- C2: the extractor is idempotent on fence-free input: for every text `x`
that does not contain the triple-backtick fence marker as a substring,
`extract(extract(x)) = extract(x)` -- once a clean entry is produced,
re-extracting reproduces it unchanged. -/
theorem c2_amended (x : List Char) (hfen : ¬ fenceMarker <:+: x) :
    extract_changelog_from_text (extract_changelog_from_text x) =
      extract_changelog_from_text x := by
  cases hf : findHead x with
  | none =>
    rw [(extract_empty_iff x).mpr hf]
    rfl
  | some p =>
    obtain ⟨s, l⟩ := p
    exact extract_fixed x s l hf hfen

/-- Witness for C2 at a concrete fence-free input. -/
theorem c2_witness :
    ¬ fenceMarker <:+: ("Intro\n## v1.2.0\n### Fixed\n- bug".data) ∧
    extract_changelog_from_text (extract_changelog_from_text
      ("Intro\n## v1.2.0\n### Fixed\n- bug".data)) =
      extract_changelog_from_text ("Intro\n## v1.2.0\n### Fixed\n- bug".data) :=
  ⟨by decide, c2_amended _ (by decide)⟩

theorem takeWhile_all (p : Char → Bool) (l : List Char) (h : l.all p = true) :
    l.takeWhile p = l := by
  induction l with
  | nil => rfl
  | cons c r ih =>
    simp only [List.all_cons, Bool.and_eq_true] at h
    rw [List.takeWhile_cons_of_pos h.1, ih h.2]

theorem wsRunLen_cons_ws (c : Char) (l : List Char) (h : isPySpace c = true) :
    wsRunLen (c :: l) = wsRunLen l + 1 := by
  unfold wsRunLen
  rw [List.takeWhile_cons_of_pos h]
  rfl

theorem wsRunLen_cons_not (c : Char) (l : List Char) (h : isPySpace c = false) :
    wsRunLen (c :: l) = 0 := by
  unfold wsRunLen
  rw [List.takeWhile_cons_of_neg (by simp [h])]
  rfl

theorem wsRunLen_le (l : List Char) : wsRunLen l ≤ l.length := by
  unfold wsRunLen
  exact (List.takeWhile_prefix _).length_le

theorem wsRunLen_lt (u ys : List Char) (hne : u ≠ [])
    (hlast : ∀ c, u.getLast? = some c → isPySpace c = false) :
    wsRunLen (u ++ ys) < u.length := by
  by_contra hcon
  push_neg at hcon
  have hall : ((u ++ ys).take u.length).all isPySpace = true :=
    take_all_isPySpace _ _ hcon
  rw [List.take_left] at hall
  obtain ⟨c, hc⟩ : ∃ c, u.getLast? = some c := by
    cases hu : u.getLast? with
    | none => exact absurd (List.getLast?_eq_none_iff.mp hu) hne
    | some c => exact ⟨c, rfl⟩
  have h1 := hlast c hc
  rw [List.all_eq_true] at hall
  rw [hall c (List.mem_of_mem_getLast? hc)] at h1
  cases h1

theorem headingAtWs_nil : headingAtWs [] = none := rfl

theorem headingAtWs_none_of_head (cs : List Char) (c : Char) (hc : cs.head? = some c)
    (hne : c ≠ '#') : headingAtWs cs = none := by
  cases cs with
  | nil => cases hc
  | cons a r =>
    cases hc
    unfold headingAtWs headingWsRest
    rw [expectChar_cons_ne '#' c r hne]
    rfl

theorem altAt_nil : altAt [] = some 0 := rfl

theorem altAt_none_of (cs : List Char) (h1 : headingAtWs cs = none)
    (h2 : dollarAt cs = false) : altAt cs = none := by
  unfold altAt
  rw [h1, h2]
  rfl

theorem altAt_heading (cs : List Char) (l : Nat) (h : headingAtWs cs = some l) :
    altAt cs = some l := by
  unfold altAt
  rw [h]

theorem dollarAt_false_of_len (cs : List Char) (h : 2 ≤ cs.length) :
    dollarAt cs = false := by
  cases cs with
  | nil => simp at h
  | cons a t =>
    cases t with
    | nil => simp at h
    | cons b t2 => rfl

theorem tryCs_none_of (cs : List Char) (K : Nat)
    (h : ∀ k, k ≤ K → altAt (cs.drop k) = none) : tryCs cs K = none := by
  induction K with
  | zero =>
    show altAt cs = none
    have := h 0 (Nat.le_refl 0)
    rwa [List.drop_zero] at this
  | succ K ih =>
    simp only [tryCs]
    rw [h (K + 1) (Nat.le_refl _)]
    exact ih (fun k hk => h k (Nat.le_succ_of_le hk))

theorem tryCs_top (cs : List Char) (K e : Nat) (h : altAt (cs.drop K) = some e) :
    tryCs cs K = some (K + e) := by
  cases K with
  | zero =>
    show altAt cs = some (0 + e)
    rw [List.drop_zero] at h
    rw [h, Nat.zero_add]
  | succ K =>
    simp only [tryCs]
    rw [h]

theorem findEndAux_walk (xs ys : List Char)
    (h : ∀ j, j < xs.length →
      tryCs ((xs ++ ys).drop j) (wsRunLen ((xs ++ ys).drop j)) = none) :
    ∀ b, findEndAux (xs ++ ys) b = findEndAux ys (b + xs.length) := by
  induction xs with
  | nil =>
    intro b
    simp
  | cons c r ih =>
    intro b
    rw [List.cons_append, findEndAux_cons]
    have h0 := h 0 (by simp)
    rw [List.drop_zero, List.cons_append] at h0
    rw [h0]
    have hsh : ∀ j, j < r.length →
        tryCs ((r ++ ys).drop j) (wsRunLen ((r ++ ys).drop j)) = none := by
      intro j hj
      have := h (j + 1) (by simp; omega)
      rwa [List.cons_append, List.drop_succ_cons] at this
    rw [ih hsh (b + 1)]
    have harith : b + 1 + r.length = b + (c :: r).length := by
      simp only [List.length_cons]
      omega
    rw [harith]

theorem not_all_drop (cs : List Char) (k : Nat) (hk : k ≤ wsRunLen cs)
    (hws : ¬ cs.all isPySpace = true) : ¬ (cs.drop k).all isPySpace = true := by
  intro hall
  refine hws ?_
  have h1 : (cs.take k).all isPySpace = true := take_all_isPySpace cs k hk
  rw [← List.take_append_drop k cs, List.all_append, h1, hall]
  rfl

theorem findEndAux_no_hash (xs : List Char) (hx : ∀ c ∈ xs, c ≠ '#') :
    ∀ b, findEndAux xs b = some (b + xs.length) := by
  induction xs with
  | nil =>
    intro b
    rw [findEndAux_nil]
    simp
  | cons c r ih =>
    intro b
    rw [findEndAux_cons]
    by_cases hws : (c :: r).all isPySpace = true
    · have hwsr : wsRunLen (c :: r) = (c :: r).length := by
        unfold wsRunLen
        rw [takeWhile_all isPySpace _ hws]
      have htc : tryCs (c :: r) (wsRunLen (c :: r)) =
          some (wsRunLen (c :: r) + 0) := by
        refine tryCs_top _ _ 0 ?_
        rw [hwsr, List.drop_length]
        exact altAt_nil
      rw [htc, hwsr]
      simp
    · have htc : tryCs (c :: r) (wsRunLen (c :: r)) = none := by
        refine tryCs_none_of _ _ ?_
        intro k hk
        have hnotall := not_all_drop (c :: r) k hk hws
        have hdol : dollarAt ((c :: r).drop k) = false := by
          cases hu : (c :: r).drop k with
          | nil =>
            rw [hu] at hnotall
            exact absurd rfl hnotall
          | cons a t =>
            cases t with
            | nil =>
              by_cases ha : a = '\n'
              · subst ha
                rw [hu] at hnotall
                exact absurd (by decide) hnotall
              · show dollarAt [a] = false
                simp [dollarAt, ha]
            | cons b2 t2 => rfl
        have hhd : headingAtWs ((c :: r).drop k) = none := by
          cases hu : (c :: r).drop k with
          | nil => rfl
          | cons a t =>
            refine headingAtWs_none_of_head (a :: t) a rfl ?_
            refine hx a ((List.drop_suffix k (c :: r)).subset ?_)
            rw [hu]
            exact List.mem_cons_self a t
        exact altAt_none_of _ hhd hdol
      rw [htc]
      have hxr : ∀ c2 ∈ r, c2 ≠ '#' := fun c2 hc2 => hx c2 (List.mem_cons_of_mem c hc2)
      rw [ih hxr (b + 1)]
      have harith : b + 1 + r.length = b + (c :: r).length := by
        simp only [List.length_cons]
        omega
      rw [harith]

theorem headingAtWs_headingOf (e1 e2 e3 rest : List Char)
    (h1 : e1 ≠ []) (h2 : e2 ≠ []) (h3 : e3 ≠ [])
    (a1 : e1.all Char.isDigit = true) (a2 : e2.all Char.isDigit = true)
    (a3 : e3.all Char.isDigit = true)
    (hrest : ∀ c, rest.head? = some c → c.isDigit = false) :
    headingAtWs (headingOf e1 e2 e3 ++ rest) =
      some (headingOf e1 e2 e3).length := by
  have hshape : headingOf e1 e2 e3 ++ rest =
      '#' :: '#' :: ' ' :: ('v' :: (e1 ++ '.' :: (e2 ++ '.' :: (e3 ++ rest)))) := by
    show ('#' :: '#' :: ' ' :: versionOf e1 e2 e3) ++ rest = _
    rw [List.cons_append, List.cons_append, List.cons_append, versionOf_append]
  have hWsRest : headingWsRest (headingOf e1 e2 e3 ++ rest) = some rest := by
    rw [hshape]
    unfold headingWsRest
    rw [expectChar_cons_self, Option.some_bind, expectChar_cons_self, Option.some_bind,
      List.dropWhile_cons_of_pos (by decide), List.dropWhile_cons_of_neg (by decide),
      expectChar_cons_self, Option.some_bind,
      digitsOne_of_digits e1 _ h1 a1 (fun c hc => by cases hc; decide), Option.some_bind,
      expectChar_cons_self, Option.some_bind,
      digitsOne_of_digits e2 _ h2 a2 (fun c hc => by cases hc; decide), Option.some_bind,
      expectChar_cons_self, Option.some_bind]
    exact digitsOne_of_digits e3 rest h3 a3 hrest
  unfold headingAtWs
  rw [hWsRest]
  simp only [Option.map_some']
  congr 1
  rw [List.length_append]
  omega

theorem matchFrom_whole (v tail : List Char) (hvne : v ≠ [])
    (hvh : ∀ c, v.head? = some c → isPySpace c = false)
    (hx : ∀ c ∈ tail, c ≠ '#') :
    matchFrom v ('#' :: '#' :: (' ' :: (v ++ '\n' :: tail))) =
      some (4 + v.length + tail.length) := by
  obtain ⟨c0, v', hv⟩ : ∃ c0 v', v = c0 :: v' := by
    cases v with
    | nil => exact absurd rfl hvne
    | cons a b => exact ⟨a, b, rfl⟩
  have hc0 : isPySpace c0 = false := hvh c0 (by rw [hv]; rfl)
  have hws1 : wsRunLen (' ' :: (v ++ '\n' :: tail)) = 1 := by
    rw [wsRunLen_cons_ws _ _ (by decide), hv, List.cons_append,
      wsRunLen_cons_not _ _ hc0]
  rw [matchFrom, expectChar_cons_self, Option.some_bind, expectChar_cons_self,
    Option.some_bind, hws1]
  have htl : tryLit v (' ' :: (v ++ '\n' :: tail)) 1 = some (1 + v.length) := by
    simp only [tryLit, List.drop_succ_cons, List.drop_zero]
    rw [if_pos (List.isPrefixOf_iff_prefix.mpr ⟨'\n' :: tail, rfl⟩)]
  rw [htl, Option.some_bind]
  have hdrop : (' ' :: (v ++ '\n' :: tail)).drop (1 + v.length) = '\n' :: tail := by
    rw [show 1 + v.length = v.length + 1 from by omega, List.drop_succ_cons,
      List.drop_left]
  rw [hdrop, wsRunLen_cons_ws _ _ (by decide), List.drop_succ_cons]
  have hfe : findEndAux (tail.drop (wsRunLen tail)) 0 =
      some (0 + (tail.drop (wsRunLen tail)).length) := by
    refine findEndAux_no_hash _ ?_ 0
    intro c hc
    exact hx c ((List.drop_suffix _ tail).subset hc)
  rw [hfe]
  simp only [Option.map_some']
  congr 1
  rw [List.length_drop]
  have := wsRunLen_le tail
  omega

theorem matchFrom_next (v body tail2 e1 e2 e3 : List Char) (hvne : v ≠ [])
    (hvh : ∀ c, v.head? = some c → isPySpace c = false)
    (hbne : body ≠ [])
    (hbh : ∀ c, body.head? = some c → isPySpace c = false)
    (hbl : ∀ c, body.getLast? = some c → isPySpace c = false)
    (hbx : ∀ c ∈ body, c ≠ '#')
    (h1 : e1 ≠ []) (h2 : e2 ≠ []) (h3 : e3 ≠ [])
    (a1 : e1.all Char.isDigit = true) (a2 : e2.all Char.isDigit = true)
    (a3 : e3.all Char.isDigit = true)
    (ht2 : ∀ c, tail2.head? = some c → c.isDigit = false) :
    matchFrom v ('#' :: '#' :: (' ' :: (v ++ '\n' ::
        (body ++ '\n' :: (headingOf e1 e2 e3 ++ tail2))))) =
      some (5 + v.length + body.length + (headingOf e1 e2 e3).length) := by
  obtain ⟨c0, v', hv⟩ : ∃ c0 v', v = c0 :: v' := by
    cases v with
    | nil => exact absurd rfl hvne
    | cons a b => exact ⟨a, b, rfl⟩
  have hc0 : isPySpace c0 = false := hvh c0 (by rw [hv]; rfl)
  obtain ⟨b0, body', hb⟩ : ∃ b0 body', body = b0 :: body' := by
    cases body with
    | nil => exact absurd rfl hbne
    | cons a b => exact ⟨a, b, rfl⟩
  have hb0 : isPySpace b0 = false := hbh b0 (by rw [hb]; rfl)
  have hws1 : wsRunLen (' ' :: (v ++ '\n' ::
      (body ++ '\n' :: (headingOf e1 e2 e3 ++ tail2)))) = 1 := by
    rw [wsRunLen_cons_ws _ _ (by decide), hv, List.cons_append,
      wsRunLen_cons_not _ _ hc0]
  rw [matchFrom, expectChar_cons_self, Option.some_bind, expectChar_cons_self,
    Option.some_bind, hws1]
  have htl : tryLit v (' ' :: (v ++ '\n' ::
      (body ++ '\n' :: (headingOf e1 e2 e3 ++ tail2)))) 1 = some (1 + v.length) := by
    simp only [tryLit, List.drop_succ_cons, List.drop_zero]
    rw [if_pos (List.isPrefixOf_iff_prefix.mpr ⟨_, rfl⟩)]
  rw [htl, Option.some_bind]
  have hdrop : (' ' :: (v ++ '\n' ::
      (body ++ '\n' :: (headingOf e1 e2 e3 ++ tail2)))).drop (1 + v.length) =
      '\n' :: (body ++ '\n' :: (headingOf e1 e2 e3 ++ tail2)) := by
    rw [show 1 + v.length = v.length + 1 from by omega, List.drop_succ_cons,
      List.drop_left]
  have hwsb : wsRunLen (body ++ '\n' :: (headingOf e1 e2 e3 ++ tail2)) = 0 := by
    rw [hb, List.cons_append, wsRunLen_cons_not _ _ hb0]
  rw [hdrop, wsRunLen_cons_ws _ _ (by decide), hwsb, List.drop_succ_cons,
    List.drop_zero]
  have hinterior : ∀ j, j < body.length →
      tryCs ((body ++ '\n' :: (headingOf e1 e2 e3 ++ tail2)).drop j)
        (wsRunLen ((body ++ '\n' :: (headingOf e1 e2 e3 ++ tail2)).drop j)) = none := by
    intro j hj
    have hdropj : (body ++ '\n' :: (headingOf e1 e2 e3 ++ tail2)).drop j =
        body.drop j ++ '\n' :: (headingOf e1 e2 e3 ++ tail2) :=
      List.drop_append_of_le_length (Nat.le_of_lt hj)
    rw [hdropj]
    have hune : body.drop j ≠ [] := by
      intro he
      have := congrArg List.length he
      rw [List.length_drop] at this
      simp at this
      omega
    have hulast : ∀ c, (body.drop j).getLast? = some c → isPySpace c = false := by
      intro c hc
      refine hbl c ?_
      conv_lhs => rw [← List.take_append_drop j body]
      rw [List.getLast?_append_of_ne_nil _ hune]
      exact hc
    have hlt : wsRunLen (body.drop j ++ '\n' :: (headingOf e1 e2 e3 ++ tail2)) <
        (body.drop j).length := wsRunLen_lt _ _ hune hulast
    refine tryCs_none_of _ _ ?_
    intro k hk
    have hklt : k < (body.drop j).length := Nat.lt_of_le_of_lt hk hlt
    have hdropk : (body.drop j ++ '\n' :: (headingOf e1 e2 e3 ++ tail2)).drop k =
        (body.drop j).drop k ++ '\n' :: (headingOf e1 e2 e3 ++ tail2) :=
      List.drop_append_of_le_length (Nat.le_of_lt hklt)
    rw [hdropk]
    obtain ⟨a, t, hat⟩ : ∃ a t, (body.drop j).drop k = a :: t := by
      cases hu : (body.drop j).drop k with
      | nil =>
        exfalso
        have hlen := congrArg List.length hu
        rw [List.length_drop, List.length_nil] at hlen
        omega
      | cons a t => exact ⟨a, t, rfl⟩
    rw [hat, List.cons_append]
    have hamem : a ∈ body := by
      have h1 : a ∈ (body.drop j).drop k := by
        rw [hat]
        exact List.mem_cons_self a t
      exact (List.drop_suffix j body).subset ((List.drop_suffix k _).subset h1)
    refine altAt_none_of _ ?_ ?_
    · exact headingAtWs_none_of_head _ a rfl (hbx a hamem)
    · refine dollarAt_false_of_len _ ?_
      simp only [List.length_cons, List.length_append]
      omega
  have hwalk := findEndAux_walk body ('\n' :: (headingOf e1 e2 e3 ++ tail2)) hinterior 0
  rw [hwalk]
  have hws0 : wsRunLen (headingOf e1 e2 e3 ++ tail2) = 0 := by
    show wsRunLen (('#' :: '#' :: ' ' :: versionOf e1 e2 e3) ++ tail2) = 0
    rw [List.cons_append, wsRunLen_cons_not _ _ (by decide)]
  have htc : tryCs ('\n' :: (headingOf e1 e2 e3 ++ tail2))
      (wsRunLen ('\n' :: (headingOf e1 e2 e3 ++ tail2))) =
      some (1 + (headingOf e1 e2 e3).length) := by
    rw [wsRunLen_cons_ws _ _ (by decide), hws0]
    show tryCs _ (0 + 1) = _
    simp only [tryCs, List.drop_succ_cons, List.drop_zero]
    rw [altAt_heading _ _ (headingAtWs_headingOf e1 e2 e3 tail2 h1 h2 h3 a1 a2 a3 ht2)]
  rw [findEndAux_cons, htc]
  simp only [Option.map_some']
  congr 1
  omega

/-- C1 (corrected): the span returned by a successful lookup does not stop
before the next `## vX.Y.Z` heading: the regex alternation consumes the next
heading match, so the returned entry includes the next heading marker; only
when no later heading exists does the span extend to (and stop at) the end
of the document. -/
theorem c1_amended :
    (∀ (p : String) (v tail : List Char), v ≠ [] →
      (∀ c, v.head? = some c → isPySpace c = false) →
      (∀ c ∈ tail, c ≠ '#') →
      get_changelog_entry v p (some ('#' :: '#' :: (' ' :: (v ++ '\n' :: tail)))) =
        .ok (pyStrip ('#' :: '#' :: (' ' :: (v ++ '\n' :: tail))))) ∧
    (∀ (p : String) (v body tail2 e1 e2 e3 : List Char), v ≠ [] →
      (∀ c, v.head? = some c → isPySpace c = false) →
      body ≠ [] →
      (∀ c, body.head? = some c → isPySpace c = false) →
      (∀ c, body.getLast? = some c → isPySpace c = false) →
      (∀ c ∈ body, c ≠ '#') →
      e1 ≠ [] → e2 ≠ [] → e3 ≠ [] →
      e1.all Char.isDigit = true → e2.all Char.isDigit = true →
      e3.all Char.isDigit = true →
      (∀ c, tail2.head? = some c → c.isDigit = false) →
      get_changelog_entry v p (some ('#' :: '#' :: (' ' :: (v ++ '\n' ::
          (body ++ '\n' :: (headingOf e1 e2 e3 ++ tail2)))))) =
        .ok ('#' :: '#' :: (' ' :: (v ++ '\n' ::
          (body ++ '\n' :: headingOf e1 e2 e3))))) := by
  constructor
  · intro p v tail hvne hvh hx
    have hm := matchFrom_whole v tail hvne hvh hx
    have hrs : reSearch v ('#' :: '#' :: (' ' :: (v ++ '\n' :: tail))) =
        some (0, 4 + v.length + tail.length) := by
      rw [reSearch, hm]
    rw [get_changelog_entry, hrs]
    simp only [List.drop_zero]
    have htake : ('#' :: '#' :: (' ' :: (v ++ '\n' :: tail))).take
        (4 + v.length + tail.length) = '#' :: '#' :: (' ' :: (v ++ '\n' :: tail)) := by
      refine List.take_of_length_le ?_
      simp only [List.length_cons, List.length_append]
      omega
    rw [htake]
  · intro p v body tail2 e1 e2 e3 hvne hvh hbne hbh hbl hbx h1 h2 h3 a1 a2 a3 ht2
    have hm := matchFrom_next v body tail2 e1 e2 e3 hvne hvh hbne hbh hbl hbx
      h1 h2 h3 a1 a2 a3 ht2
    have hrs : reSearch v ('#' :: '#' :: (' ' :: (v ++ '\n' ::
        (body ++ '\n' :: (headingOf e1 e2 e3 ++ tail2))))) =
        some (0, 5 + v.length + body.length + (headingOf e1 e2 e3).length) := by
      rw [reSearch, hm]
    rw [get_changelog_entry, hrs]
    simp only [List.drop_zero]
    have hsplit : ('#' :: '#' :: (' ' :: (v ++ '\n' ::
        (body ++ '\n' :: (headingOf e1 e2 e3 ++ tail2))))) =
        ('#' :: '#' :: (' ' :: (v ++ '\n' :: (body ++ '\n' :: headingOf e1 e2 e3)))) ++
          tail2 := by
      simp
    have hlenP : ('#' :: '#' :: (' ' :: (v ++ '\n' ::
        (body ++ '\n' :: headingOf e1 e2 e3)))).length =
        5 + v.length + body.length + (headingOf e1 e2 e3).length := by
      simp only [List.length_cons, List.length_append]
      omega
    have htake : ('#' :: '#' :: (' ' :: (v ++ '\n' ::
        (body ++ '\n' :: (headingOf e1 e2 e3 ++ tail2))))).take
        (5 + v.length + body.length + (headingOf e1 e2 e3).length) =
        ('#' :: '#' :: (' ' :: (v ++ '\n' :: (body ++ '\n' :: headingOf e1 e2 e3)))) := by
      rw [hsplit, ← hlenP, List.take_left]
    rw [htake]
    rw [pyStrip_eq_rstrip_of_head ('#' :: '#' :: (' ' :: (v ++ '\n' ::
      (body ++ '\n' :: headingOf e1 e2 e3)))) '#' rfl (by decide)]
    have hself : pyRstrip ('#' :: '#' :: (' ' :: (v ++ '\n' ::
        (body ++ '\n' :: headingOf e1 e2 e3)))) =
        '#' :: '#' :: (' ' :: (v ++ '\n' :: (body ++ '\n' :: headingOf e1 e2 e3))) := by
      refine pyRstrip_eq_self _ ?_
      intro c hc
      have hBP : ('#' :: '#' :: (' ' :: (v ++ '\n' ::
          (body ++ '\n' :: headingOf e1 e2 e3)))) =
          ('#' :: '#' :: (' ' :: (v ++ '\n' :: (body ++ ['\n'])))) ++
            headingOf e1 e2 e3 := by
        simp
      rw [hBP, List.getLast?_append_of_ne_nil _ (by simp [headingOf])] at hc
      exact headingOf_getLast e1 e2 e3 h3 a3 c hc
    rw [hself]

/-- Witness for C1 at concrete documents: without a later heading the whole
document is returned; with a later `## v9.9.9` heading the returned entry
ends with (and includes) that heading marker. -/
theorem c1_witness :
    get_changelog_entry ("v1.2.3".data) "CHANGELOG.md"
        (some ("## v1.2.3\nbody".data)) = .ok ("## v1.2.3\nbody".data) ∧
    get_changelog_entry ("v1.2.3".data) "CHANGELOG.md"
        (some ("## v1.2.3\nbody\n## v9.9.9\nother".data)) =
      .ok ("## v1.2.3\nbody\n## v9.9.9".data) := by
  constructor
  · exact c1_amended.1 "CHANGELOG.md" ("v1.2.3".data) ("body".data)
      (by decide) (by decide) (by decide)
  · exact c1_amended.2 "CHANGELOG.md" ("v1.2.3".data) ("body".data) ("\nother".data)
      (['9']) (['9']) (['9']) (by decide) (by decide) (by decide) (by decide)
      (by decide) (by decide) (by decide) (by decide) (by decide) (by decide)
      (by decide) (by decide) (by decide)
